import Mathlib

namespace AvroAlias

/-!
Shallow embedding of `src/app.py` (j3-signalroom/python-add-alias-to-avro-schema).

The Python code mutates a JSON tree (as decoded by `json.load`) in place; here
the tree is an inductive value and every mutating function returns the updated
tree.  A raised exception (a `KeyError` from `field["name"]` / `field["type"]`,
or a `TypeError`/`AttributeError` from operations on ill-typed values) is
modelled as `Except.error`; the message strings are descriptive only.
-/

/-- JSON values, as produced by a JSON decoder: objects keep key insertion
order (Python `dict` preserves it), arrays keep element order. -/
inductive Json where
  | null : Json
  | bool (b : Bool) : Json
  | num (n : Int) : Json
  | str (s : String) : Json
  | arr (items : List Json) : Json
  | obj (kvs : List (String × Json)) : Json

/-- Dictionary lookup `d.get(k)` / `d[k]`: the value of the first entry with
the given key (a decoded JSON object has unique keys). -/
def getKey? : List (String × Json) → String → Option Json
  | [], _ => none
  | (k, v) :: rest, key => if k = key then some v else getKey? rest key

/-- Python `k in d`. -/
def hasKey (kvs : List (String × Json)) (k : String) : Bool :=
  (getKey? kvs k).isSome

/-- Python `d[k] = v`: replace the entry in place if the key exists (keeping
its position), otherwise append a new entry at the end. -/
def setKey : List (String × Json) → String → Json → List (String × Json)
  | [], key, v => [(key, v)]
  | (k, w) :: rest, key, v =>
    if k = key then (key, v) :: rest else (k, w) :: setKey rest key v

/-- Python `s.removeprefix(pre)` (src/app.py:39): drop `pre` from the front
when it is an exact, case-sensitive, code-point-for-code-point prefix,
otherwise return `s` unchanged.  (Stated over the character list so that it
reduces in the kernel.) -/
def removePre (s pre : String) : String :=
  if pre.toList.isPrefixOf s.toList then ⟨s.toList.drop pre.toList.length⟩ else s

/-- Tail part of `re.sub(r'(?<!^)(?=[A-Z])', '_', name).lower()`: an
underscore is inserted before every `[A-Z]` character, and every character is
lowercased.  `Char.isUpper` is exactly the ASCII class `[A-Z]` that the regex
uses, and `Char.toLower` agrees with `str.lower` on ASCII input. -/
def snakeTail (cs : List Char) : List Char :=
  cs.flatMap fun c => if c.isUpper then ['_', c.toLower] else [c.toLower]

/-- Model of `to_snake_case` (src/app.py:13-24):
`re.sub(r'(?<!^)(?=[A-Z])', '_', name).lower()` — insert an underscore before
each capital letter that is not at the start of the string, then lowercase
everything. -/
def to_snake_case (name : String) : String :=
  match name.toList with
  | [] => ""
  | c :: cs => ⟨c.toLower :: snakeTail cs⟩

/-- The shared aliasing step of `add_alias_to_record` / `add_alias_to_field`:
`if "aliases" in d: d["aliases"].append(x) else: d["aliases"] = [x]`.
Appending to a present `aliases` list keeps the key's position; creating the
key appends it at the end of the dict.  A present `aliases` value that is not
a list makes Python's `.append` raise (`AttributeError`), modelled as an
error. -/
def appendAlias (kvs : List (String × Json)) (als : String) :
    Except String (List (String × Json)) :=
  match getKey? kvs "aliases" with
  | some (.arr xs) => .ok (setKey kvs "aliases" (.arr (xs ++ [.str als])))
  | some _ => .error "aliases value does not support append"
  | none => .ok (setKey kvs "aliases" (.arr [.str als]))

/-- Model of `add_alias_to_record` (src/app.py:27-44): if the node has a
`name`, append `to_snake_case(name.removeprefix(prepend_subject_name))` to
its `aliases`; a node without `name` is silently skipped.  A non-string
`name` makes `.removeprefix` raise (`AttributeError`), modelled as an
error. -/
def add_alias_to_record (schema : List (String × Json)) (prepend_subject_name : String) :
    Except String (List (String × Json)) :=
  match getKey? schema "name" with
  | none => .ok schema
  | some (.str n) => appendAlias schema (to_snake_case (removePre n prepend_subject_name))
  | some _ => .error "name is not a string"

/-- Model of `add_alias_to_field` (src/app.py:47-58): append
`to_snake_case(field["name"])` to the field's `aliases`.  A field without
`name` raises `KeyError`, modelled as an error. -/
def add_alias_to_field (field : List (String × Json)) :
    Except String (List (String × Json)) :=
  match getKey? field "name" with
  | none => .error "KeyError: name"
  | some (.str n) => appendAlias field (to_snake_case n)
  | some _ => .error "name is not a string"

mutual

/-- Model of `traverse_schema` (src/app.py:61-90).  The Python code adds the
record alias first and then mutates the fields in place; here the `fields`
entry is rewritten first (keeping the recursion structural) and the record
alias is appended afterwards.  The two orders produce the same tree: the
alias step touches only the `name`/`aliases` entries and the field step only
the `fields` entry (when both steps fail, only the reported message
differs). -/
def traverse_schema (schema : Json) (prepend_subject_name : String) : Except String Json :=
  match schema with
  | .obj kvs =>
    match getKey? kvs "type" with
    | some (.str t) =>
      if t = "record" then
        match traverseFields kvs prepend_subject_name with
        | .error e => .error e
        | .ok kvs1 =>
          match add_alias_to_record kvs1 prepend_subject_name with
          | .error e => .error e
          | .ok kvs2 => .ok (.obj kvs2)
      else if t = "array" then
        match traverseItems kvs prepend_subject_name with
        | .error e => .error e
        | .ok kvs1 => .ok (.obj kvs1)
      else .ok (.obj kvs)
    | _ => .ok (.obj kvs)
  | j => .ok j

/-- Rewrite the `fields` entry of a record node:
`for field in schema.get("fields", []): ...` (src/app.py:77-87).  A missing
`fields` key means zero iterations; a `fields` value that is not an array is
modelled as an error (Python would raise while iterating it or while
subscripting its elements). -/
def traverseFields : List (String × Json) → String → Except String (List (String × Json))
  | [], _ => .ok []
  | (k, v) :: rest, p =>
    if k = "fields" then
      match v with
      | .arr fs =>
        match processFields fs p with
        | .error e => .error e
        | .ok fs' => .ok ((k, Json.arr fs') :: rest)
      | _ => .error "fields is not a list"
    else
      match traverseFields rest p with
      | .error e => .error e
      | .ok rest' => .ok ((k, v) :: rest')

/-- The `for field in fields` loop over the whole list (src/app.py:78). -/
def processFields : List Json → String → Except String (List Json)
  | [], _ => .ok []
  | f :: fs, p =>
    match processField f p with
    | .error e => .error e
    | .ok f' =>
      match processFields fs p with
      | .error e => .error e
      | .ok fs' => .ok (f' :: fs')

/-- One iteration of the field loop (src/app.py:79-87):
`add_alias_to_field(field)`, then `_traverse_type(field["type"], ...)`
mutating the type in place.  As in `traverse_schema`, the recursive part (the
`type` entry) is rewritten first and the alias appended afterwards; the
resulting tree is the same.  A field that is not an object is an error
(Python raises on `field["name"]`). -/
def processField : Json → String → Except String Json
  | .obj kvs, p =>
    match traverseFieldType kvs p with
    | .error e => .error e
    | .ok kvs1 =>
      match add_alias_to_field kvs1 with
      | .error e => .error e
      | .ok kvs2 => .ok (.obj kvs2)
  | _, _ => .error "field is not an object"

/-- Rewrite the `type` entry of a field through the dispatch of
`_traverse_type` (src/app.py:93-110), inlined here to keep the recursion
structural.  `field["type"]` on a field with no `type` key raises `KeyError`
(src/app.py:86). -/
def traverseFieldType : List (String × Json) → String → Except String (List (String × Json))
  | [], _ => .error "KeyError: type"
  | (k, v) :: rest, p =>
    if k = "type" then
      match v with
      | .obj kvs =>
        match traverse_schema (.obj kvs) p with
        | .error e => .error e
        | .ok v' => .ok ((k, v') :: rest)
      | .arr ts =>
        match traverseUnion ts p with
        | .error e => .error e
        | .ok ts' => .ok ((k, Json.arr ts') :: rest)
      | other => .ok ((k, other) :: rest)
    else
      match traverseFieldType rest p with
      | .error e => .error e
      | .ok rest' => .ok ((k, v) :: rest')

/-- Rewrite the `items` entry of an array node:
`_traverse_type(schema.get("items"), ...)` (src/app.py:88-90), with the
dispatch of `_traverse_type` inlined.  A missing `items` key gives `None`, on
which the dispatch does nothing. -/
def traverseItems : List (String × Json) → String → Except String (List (String × Json))
  | [], _ => .ok []
  | (k, v) :: rest, p =>
    if k = "items" then
      match v with
      | .obj kvs =>
        match traverse_schema (.obj kvs) p with
        | .error e => .error e
        | .ok v' => .ok ((k, v') :: rest)
      | .arr ts =>
        match traverseUnion ts p with
        | .error e => .error e
        | .ok ts' => .ok ((k, Json.arr ts') :: rest)
      | other => .ok ((k, other) :: rest)
    else
      match traverseItems rest p with
      | .error e => .error e
      | .ok rest' => .ok ((k, v) :: rest')

/-- The union loop of `_traverse_type` (src/app.py:105-109): recurse into
each member that is a dict, leave every other member untouched. -/
def traverseUnion : List Json → String → Except String (List Json)
  | [], _ => .ok []
  | t :: ts, p =>
    match t with
    | .obj kvs =>
      match traverse_schema (.obj kvs) p with
      | .error e => .error e
      | .ok t' =>
        match traverseUnion ts p with
        | .error e => .error e
        | .ok ts' => .ok (t' :: ts')
    | other =>
      match traverseUnion ts p with
      | .error e => .error e
      | .ok ts' => .ok (other :: ts')

end

/-- Model of `_traverse_type` (src/app.py:93-110) as a standalone dispatch: a
dict is a nested schema, a list is a union, anything else (a primitive type
name, `None`, ...) is left alone. -/
def _traverse_type (type_obj : Json) (prepend_subject_name : String) : Except String Json :=
  match type_obj with
  | .obj kvs => traverse_schema (.obj kvs) prepend_subject_name
  | .arr ts =>
    match traverseUnion ts prepend_subject_name with
    | .error e => .error e
    | .ok ts' => .ok (.arr ts')
  | j => .ok j

/-- Model of `add_aliases_to_avro_schema` (src/app.py:113-127): run the
traversal and return the (updated) schema. -/
def add_aliases_to_avro_schema (schema : Json) (prepend_subject_name : String) :
    Except String Json :=
  traverse_schema schema prepend_subject_name

/-- The list stored under `aliases` (empty when absent); used to state how
the alias list of a node grows. -/
def aliasList (kvs : List (String × Json)) : List Json :=
  match getKey? kvs "aliases" with
  | some (.arr xs) => xs
  | _ => []

/-- The `name` entry, when present, is a string (the shape of a decoded Avro
schema; the Python code would raise on anything else). -/
def nameOk (kvs : List (String × Json)) : Bool :=
  match getKey? kvs "name" with
  | some (.str _) => true
  | none => true
  | _ => false

/-- The `aliases` entry, when present, is a list (the spec's data model; the
Python code would raise `AttributeError` on `.append` otherwise). -/
def aliasesOk (kvs : List (String × Json)) : Bool :=
  match getKey? kvs "aliases" with
  | some (.arr _) => true
  | none => true
  | _ => false

mutual

/-- Erase every `aliases` entry, everywhere in the tree.  Two trees with the
same `stripAliases` image agree on everything except their alias lists. -/
def stripAliases : Json → Json
  | .obj kvs => .obj (stripObj kvs)
  | .arr xs => .arr (stripArr xs)
  | j => j

/-- Pointwise `stripAliases` over an object, dropping `aliases` entries. -/
def stripObj : List (String × Json) → List (String × Json)
  | [] => []
  | (k, v) :: rest =>
    if k = "aliases" then stripObj rest else (k, stripAliases v) :: stripObj rest

/-- Pointwise `stripAliases` over an array. -/
def stripArr : List Json → List Json
  | [] => []
  | x :: xs => stripAliases x :: stripArr xs

end

/-- The number of entries a JSON value contributes when it sits under an
`aliases` key: the length when it is a list, `0` otherwise. -/
def aliasLen : Json → Nat
  | .arr xs => xs.length
  | _ => 0

mutual

/-- Total number of entries across all `aliases` lists in the tree. -/
def countAliases : Json → Nat
  | .obj kvs => countAliasesObj kvs
  | .arr xs => countAliasesArr xs
  | _ => 0

/-- Alias entries of an object: the lengths of its `aliases` values plus the
alias entries inside every other value. -/
def countAliasesObj : List (String × Json) → Nat
  | [] => 0
  | (k, v) :: rest =>
    (if k = "aliases" then aliasLen v else countAliases v) + countAliasesObj rest

/-- Alias entries of an array, summed over its elements. -/
def countAliasesArr : List Json → Nat
  | [] => 0
  | x :: xs => countAliases x + countAliasesArr xs

end

mutual

/-- Number of alias-append operations one traversal run performs on this
tree: one per visited record that has a `name` (a nameless record is skipped,
src/app.py:38) and one per visited field.  The visit pattern mirrors
`traverse_schema` / `_traverse_type` exactly. -/
def visitCount : Json → Nat
  | .obj kvs =>
    match getKey? kvs "type" with
    | some (.str t) =>
      if t = "record" then
        (if hasKey kvs "name" then 1 else 0) + visitFieldsOf kvs
      else if t = "array" then visitItemsOf kvs
      else 0
    | _ => 0
  | _ => 0

/-- Visits contributed by the `fields` entry of a record node. -/
def visitFieldsOf : List (String × Json) → Nat
  | [] => 0
  | (k, v) :: rest =>
    if k = "fields" then
      match v with
      | .arr fs => visitFields fs
      | _ => 0
    else visitFieldsOf rest

/-- Visits contributed by a list of fields. -/
def visitFields : List Json → Nat
  | [] => 0
  | f :: fs => visitField f + visitFields fs

/-- Visits contributed by one field: one for the field itself plus the visits
inside its `type`. -/
def visitField : Json → Nat
  | .obj kvs => 1 + visitTypeOf kvs
  | _ => 0

/-- Visits contributed by the `type` entry of a field (dispatch of
`_traverse_type`, inlined). -/
def visitTypeOf : List (String × Json) → Nat
  | [] => 0
  | (k, v) :: rest =>
    if k = "type" then
      match v with
      | .obj kvs => visitCount (.obj kvs)
      | .arr ts => visitUnion ts
      | _ => 0
    else visitTypeOf rest

/-- Visits contributed by the `items` entry of an array node. -/
def visitItemsOf : List (String × Json) → Nat
  | [] => 0
  | (k, v) :: rest =>
    if k = "items" then
      match v with
      | .obj kvs => visitCount (.obj kvs)
      | .arr ts => visitUnion ts
      | _ => 0
    else visitItemsOf rest

/-- Visits contributed by union members (only dict members are entered). -/
def visitUnion : List Json → Nat
  | [] => 0
  | t :: ts =>
    (match t with
     | .obj kvs => visitCount (.obj kvs)
     | _ => 0) + visitUnion ts

end

mutual

/-- Shape discipline of the parts of the tree the traversal visits, apart
from the presence of required keys: every visited `name` is a string, every
visited `aliases` is a list, every visited `fields` is a list of objects.
This is the Avro data model of the spec (§3); under it the only runtime
errors left are the two `KeyError`s for a field's missing `name`/`type`. -/
def shapeOk : Json → Bool
  | .obj kvs =>
    match getKey? kvs "type" with
    | some (.str t) =>
      if t = "record" then nameOk kvs && aliasesOk kvs && shapeFieldsOf kvs
      else if t = "array" then shapeItemsOf kvs
      else true
    | _ => true
  | _ => true

/-- Shape of the `fields` entry of a record node. -/
def shapeFieldsOf : List (String × Json) → Bool
  | [] => true
  | (k, v) :: rest =>
    if k = "fields" then
      match v with
      | .arr fs => shapeFields fs
      | _ => false
    else shapeFieldsOf rest

/-- Shape of a list of fields. -/
def shapeFields : List Json → Bool
  | [] => true
  | f :: fs => shapeField f && shapeFields fs

/-- Shape of one field: an object whose `name` (if present) is a string,
whose `aliases` (if present) is a list, and whose `type` (if present) is
well-shaped. -/
def shapeField : Json → Bool
  | .obj kvs => nameOk kvs && aliasesOk kvs && shapeTypeOf kvs
  | _ => false

/-- Shape of the `type` entry of a field (dispatch of `_traverse_type`,
inlined). -/
def shapeTypeOf : List (String × Json) → Bool
  | [] => true
  | (k, v) :: rest =>
    if k = "type" then
      match v with
      | .obj kvs => shapeOk (.obj kvs)
      | .arr ts => shapeUnion ts
      | _ => true
    else shapeTypeOf rest

/-- Shape of the `items` entry of an array node. -/
def shapeItemsOf : List (String × Json) → Bool
  | [] => true
  | (k, v) :: rest =>
    if k = "items" then
      match v with
      | .obj kvs => shapeOk (.obj kvs)
      | .arr ts => shapeUnion ts
      | _ => true
    else shapeItemsOf rest

/-- Shape of union members (only dict members are entered). -/
def shapeUnion : List Json → Bool
  | [] => true
  | t :: ts =>
    (match t with
     | .obj kvs => shapeOk (.obj kvs)
     | _ => true) && shapeUnion ts

end

mutual

/-- Every field the traversal reaches in this tree carries its required keys:
`name` (needed by `add_alias_to_field`, src/app.py:54) and `type` (needed by
`field["type"]`, src/app.py:86). -/
def hasRequiredKeys : Json → Bool
  | .obj kvs =>
    match getKey? kvs "type" with
    | some (.str t) =>
      if t = "record" then reqFieldsOf kvs
      else if t = "array" then reqItemsOf kvs
      else true
    | _ => true
  | _ => true

/-- Required keys inside the `fields` entry of a record node. -/
def reqFieldsOf : List (String × Json) → Bool
  | [] => true
  | (k, v) :: rest =>
    if k = "fields" then
      match v with
      | .arr fs => reqFields fs
      | _ => true
    else reqFieldsOf rest

/-- Required keys of a list of fields. -/
def reqFields : List Json → Bool
  | [] => true
  | f :: fs => reqField f && reqFields fs

/-- Required keys of one field: `name` is present, `type` is present (checked
by `reqTypeOf` reaching the end of the object), and the `type` value itself
is recursively complete. -/
def reqField : Json → Bool
  | .obj kvs => hasKey kvs "name" && reqTypeOf kvs
  | _ => true

/-- Walk to the `type` entry of a field: absent `type` is a missing required
key; a present one is checked recursively (dispatch of `_traverse_type`,
inlined). -/
def reqTypeOf : List (String × Json) → Bool
  | [] => false
  | (k, v) :: rest =>
    if k = "type" then
      match v with
      | .obj kvs => hasRequiredKeys (.obj kvs)
      | .arr ts => reqUnion ts
      | _ => true
    else reqTypeOf rest

/-- Required keys inside the `items` entry of an array node. -/
def reqItemsOf : List (String × Json) → Bool
  | [] => true
  | (k, v) :: rest =>
    if k = "items" then
      match v with
      | .obj kvs => hasRequiredKeys (.obj kvs)
      | .arr ts => reqUnion ts
      | _ => true
    else reqItemsOf rest

/-- Required keys of union members (only dict members are entered). -/
def reqUnion : List Json → Bool
  | [] => true
  | t :: ts =>
    (match t with
     | .obj kvs => hasRequiredKeys (.obj kvs)
     | _ => true) && reqUnion ts

end

/-! ### Basic facts about the dictionary operations -/

theorem getKey?_setKey_self (kvs : List (String × Json)) (k : String) (v : Json) :
    getKey? (setKey kvs k v) k = some v := by
  induction kvs with
  | nil => simp [setKey, getKey?]
  | cons e rest ih =>
    obtain ⟨k', v'⟩ := e
    by_cases hk : k' = k
    · subst hk; simp [setKey, getKey?]
    · simp [setKey, getKey?, hk, ih]

theorem getKey?_setKey_ne (kvs : List (String × Json)) (k : String) (v : Json)
    (k₀ : String) (h : k₀ ≠ k) : getKey? (setKey kvs k v) k₀ = getKey? kvs k₀ := by
  induction kvs with
  | nil => simp [setKey, getKey?, Ne.symm h]
  | cons e rest ih =>
    obtain ⟨k', v'⟩ := e
    by_cases hk : k' = k
    · subst hk; simp [setKey, getKey?, Ne.symm h, h]
    · by_cases hk0 : k' = k₀ <;> simp [setKey, getKey?, hk, hk0, ih, h]

theorem sizeOf_lt_of_getKey? {kvs : List (String × Json)} {k : String} {v : Json}
    (h : getKey? kvs k = some v) : sizeOf v < sizeOf kvs := by
  induction kvs with
  | nil => simp [getKey?] at h
  | cons e rest ih =>
    obtain ⟨k', v'⟩ := e
    by_cases hk : k' = k
    · simp [getKey?, hk] at h
      subst h
      simp
      omega
    · simp [getKey?, hk] at h
      have := ih h
      simp
      omega

/-! ### Facts about the alias-appending step -/

theorem appendAlias_eq (kvs : List (String × Json)) (als : String)
    (h : aliasesOk kvs = true) :
    appendAlias kvs als = .ok (setKey kvs "aliases" (.arr (aliasList kvs ++ [.str als]))) := by
  unfold appendAlias aliasesOk aliasList at *
  cases hal : getKey? kvs "aliases" with
  | none => simp [hal]
  | some v =>
    cases v <;> simp_all [hal]

theorem appendAlias_getKey_ne {kvs kvs' : List (String × Json)} {als : String}
    (h : appendAlias kvs als = .ok kvs') (k : String) (hk : k ≠ "aliases") :
    getKey? kvs' k = getKey? kvs k := by
  unfold appendAlias at h
  cases hal : getKey? kvs "aliases" with
  | none =>
    rw [hal] at h
    cases h
    exact getKey?_setKey_ne kvs "aliases" _ k hk
  | some v =>
    rw [hal] at h
    cases v <;> simp at h
    cases h
    exact getKey?_setKey_ne kvs "aliases" _ k hk

theorem aliasList_setKey (kvs : List (String × Json)) (xs : List Json) :
    aliasList (setKey kvs "aliases" (.arr xs)) = xs := by
  unfold aliasList
  rw [getKey?_setKey_self]

theorem add_alias_to_record_eq {kvs : List (String × Json)} {p n : String}
    (hn : getKey? kvs "name" = some (.str n)) (ha : aliasesOk kvs = true) :
    add_alias_to_record kvs p =
      .ok (setKey kvs "aliases"
        (.arr (aliasList kvs ++ [.str (to_snake_case (removePre n p))]))) := by
  unfold add_alias_to_record
  rw [hn]
  exact appendAlias_eq kvs _ ha

theorem add_alias_to_record_of_no_name {kvs : List (String × Json)} {p : String}
    (hn : getKey? kvs "name" = none) : add_alias_to_record kvs p = .ok kvs := by
  unfold add_alias_to_record
  rw [hn]

theorem add_alias_to_field_eq {kvs : List (String × Json)} {n : String}
    (hn : getKey? kvs "name" = some (.str n)) (ha : aliasesOk kvs = true) :
    add_alias_to_field kvs =
      .ok (setKey kvs "aliases" (.arr (aliasList kvs ++ [.str (to_snake_case n)]))) := by
  unfold add_alias_to_field
  rw [hn]
  exact appendAlias_eq kvs _ ha

theorem add_alias_to_field_of_no_name {kvs : List (String × Json)}
    (hn : getKey? kvs "name" = none) : add_alias_to_field kvs = .error "KeyError: name" := by
  unfold add_alias_to_field
  rw [hn]

theorem add_alias_to_record_getKey_ne {kvs kvs' : List (String × Json)} {p : String}
    (h : add_alias_to_record kvs p = .ok kvs') (k : String) (hk : k ≠ "aliases") :
    getKey? kvs' k = getKey? kvs k := by
  unfold add_alias_to_record at h
  cases hn : getKey? kvs "name" with
  | none => rw [hn] at h; cases h; rfl
  | some v =>
    rw [hn] at h
    cases v <;> simp at h
    exact appendAlias_getKey_ne h k hk

theorem add_alias_to_field_getKey_ne {kvs kvs' : List (String × Json)}
    (h : add_alias_to_field kvs = .ok kvs') (k : String) (hk : k ≠ "aliases") :
    getKey? kvs' k = getKey? kvs k := by
  unfold add_alias_to_field at h
  cases hn : getKey? kvs "name" with
  | none => rw [hn] at h; cases h
  | some v =>
    rw [hn] at h
    cases v <;> simp at h
    exact appendAlias_getKey_ne h k hk

/-! ### The walk-style rewriting functions, re-expressed in the
`get`-then-`set` shape of the Python source -/

theorem traverseFields_of_none {kvs : List (String × Json)} (p : String)
    (h : getKey? kvs "fields" = none) : traverseFields kvs p = .ok kvs := by
  induction kvs with
  | nil => rfl
  | cons e rest ih =>
    obtain ⟨k, v⟩ := e
    by_cases hk : k = "fields"
    · subst hk; simp [getKey?] at h
    · simp [getKey?, hk] at h
      unfold traverseFields
      rw [if_neg hk, ih h]

theorem traverseFields_of_arr {kvs : List (String × Json)} (p : String) {fs : List Json}
    (h : getKey? kvs "fields" = some (.arr fs)) :
    traverseFields kvs p =
      (processFields fs p).map fun fs' => setKey kvs "fields" (.arr fs') := by
  induction kvs with
  | nil => simp [getKey?] at h
  | cons e rest ih =>
    obtain ⟨k, v⟩ := e
    by_cases hk : k = "fields"
    · subst hk
      simp [getKey?] at h
      subst h
      unfold traverseFields
      rw [if_pos rfl]
      cases hp : processFields fs p <;> simp [hp, Except.map, setKey]
    · simp [getKey?, hk] at h
      unfold traverseFields
      rw [if_neg hk, ih h]
      cases hp : processFields fs p <;> simp [hp, Except.map, setKey, hk]

theorem traverseFieldType_of_none {kvs : List (String × Json)} (p : String)
    (h : getKey? kvs "type" = none) : traverseFieldType kvs p = .error "KeyError: type" := by
  induction kvs with
  | nil => rfl
  | cons e rest ih =>
    obtain ⟨k, v⟩ := e
    by_cases hk : k = "type"
    · subst hk; simp [getKey?] at h
    · simp [getKey?, hk] at h
      unfold traverseFieldType
      rw [if_neg hk, ih h]

theorem traverseFieldType_of_some {kvs : List (String × Json)} (p : String) {v : Json}
    (h : getKey? kvs "type" = some v) :
    traverseFieldType kvs p = (_traverse_type v p).map fun v' => setKey kvs "type" v' := by
  induction kvs with
  | nil => simp [getKey?] at h
  | cons e rest ih =>
    obtain ⟨k, w⟩ := e
    by_cases hk : k = "type"
    · subst hk
      simp [getKey?] at h
      subst h
      unfold traverseFieldType
      rw [if_pos rfl]
      cases w with
      | arr ts =>
        cases hu : traverseUnion ts p <;>
          simp [_traverse_type, hu, Except.map, setKey]
      | obj o =>
        cases ht : traverse_schema (.obj o) p <;>
          simp [_traverse_type, ht, Except.map, setKey]
      | null => simp [_traverse_type, Except.map, setKey]
      | bool b => simp [_traverse_type, Except.map, setKey]
      | num n => simp [_traverse_type, Except.map, setKey]
      | str s => simp [_traverse_type, Except.map, setKey]
    · simp [getKey?, hk] at h
      unfold traverseFieldType
      rw [if_neg hk, ih h]
      cases hv : _traverse_type v p <;> simp [hv, Except.map, setKey, hk]

theorem traverseItems_of_none {kvs : List (String × Json)} (p : String)
    (h : getKey? kvs "items" = none) : traverseItems kvs p = .ok kvs := by
  induction kvs with
  | nil => rfl
  | cons e rest ih =>
    obtain ⟨k, v⟩ := e
    by_cases hk : k = "items"
    · subst hk; simp [getKey?] at h
    · simp [getKey?, hk] at h
      unfold traverseItems
      rw [if_neg hk, ih h]

theorem traverseItems_of_some {kvs : List (String × Json)} (p : String) {v : Json}
    (h : getKey? kvs "items" = some v) :
    traverseItems kvs p = (_traverse_type v p).map fun v' => setKey kvs "items" v' := by
  induction kvs with
  | nil => simp [getKey?] at h
  | cons e rest ih =>
    obtain ⟨k, w⟩ := e
    by_cases hk : k = "items"
    · subst hk
      simp [getKey?] at h
      subst h
      unfold traverseItems
      rw [if_pos rfl]
      cases w with
      | arr ts =>
        cases hu : traverseUnion ts p <;>
          simp [_traverse_type, hu, Except.map, setKey]
      | obj o =>
        cases ht : traverse_schema (.obj o) p <;>
          simp [_traverse_type, ht, Except.map, setKey]
      | null => simp [_traverse_type, Except.map, setKey]
      | bool b => simp [_traverse_type, Except.map, setKey]
      | num n => simp [_traverse_type, Except.map, setKey]
      | str s => simp [_traverse_type, Except.map, setKey]
    · simp [getKey?, hk] at h
      unfold traverseItems
      rw [if_neg hk, ih h]
      cases hv : _traverse_type v p <;> simp [hv, Except.map, setKey, hk]

/-! ### Case equations for the traversal, in the shape of the Python source -/

theorem traverse_schema_record {kvs : List (String × Json)} (p : String)
    (h : getKey? kvs "type" = some (.str "record")) :
    traverse_schema (.obj kvs) p =
      (traverseFields kvs p).bind fun kvs1 => (add_alias_to_record kvs1 p).map Json.obj := by
  unfold traverse_schema
  simp only [h]
  cases hf : traverseFields kvs p with
  | error e => simp [Except.bind]
  | ok kvs1 =>
    cases ha : add_alias_to_record kvs1 p <;> simp [Except.bind, Except.map, ha]

theorem traverse_schema_array {kvs : List (String × Json)} (p : String)
    (h : getKey? kvs "type" = some (.str "array")) :
    traverse_schema (.obj kvs) p = (traverseItems kvs p).map Json.obj := by
  unfold traverse_schema
  simp only [h]
  rw [if_neg (by decide)]
  cases hi : traverseItems kvs p <;> simp [Except.map]

theorem traverse_schema_other {kvs : List (String × Json)} (p : String)
    (h : ∀ t, getKey? kvs "type" = some (.str t) → t ≠ "record" ∧ t ≠ "array") :
    traverse_schema (.obj kvs) p = .ok (.obj kvs) := by
  unfold traverse_schema
  cases htyp : getKey? kvs "type" with
  | none => rfl
  | some v =>
    cases v with
    | str t =>
      obtain ⟨h1, h2⟩ := h t htyp
      simp only [htyp]
      rw [if_neg h1, if_neg h2]
    | null => rfl
    | bool b => rfl
    | num n => rfl
    | arr xs => rfl
    | obj o => rfl

theorem traverse_schema_not_obj {j : Json} (p : String)
    (h : ∀ kvs, j ≠ .obj kvs) : traverse_schema j p = .ok j := by
  cases j with
  | obj o => exact absurd rfl (h o)
  | null => rfl
  | bool b => rfl
  | num n => rfl
  | str s => rfl
  | arr xs => rfl

theorem traverseFields_of_other {kvs : List (String × Json)} (p : String) {v : Json}
    (h : getKey? kvs "fields" = some v) (hv : ∀ fs, v ≠ .arr fs) :
    traverseFields kvs p = .error "fields is not a list" := by
  induction kvs with
  | nil => simp [getKey?] at h
  | cons e rest ih =>
    obtain ⟨k, w⟩ := e
    by_cases hk : k = "fields"
    · subst hk
      simp [getKey?] at h
      subst h
      unfold traverseFields
      rw [if_pos rfl]
      cases w with
      | arr fs => exact absurd rfl (hv fs)
      | null => rfl
      | bool b => rfl
      | num n => rfl
      | str s => rfl
      | obj o => rfl
    · simp [getKey?, hk] at h
      unfold traverseFields
      rw [if_neg hk, ih h]

/-! ### The rewriting steps only touch their own entry -/

theorem traverseFields_getKey_ne {kvs kvs' : List (String × Json)} {p : String}
    (h : traverseFields kvs p = .ok kvs') (k : String) (hk : k ≠ "fields") :
    getKey? kvs' k = getKey? kvs k := by
  cases hf : getKey? kvs "fields" with
  | none =>
    rw [traverseFields_of_none p hf] at h
    obtain rfl := Except.ok.inj h
    rfl
  | some v =>
    cases v with
    | arr fs =>
      rw [traverseFields_of_arr p hf] at h
      cases hp : processFields fs p with
      | error e => rw [hp] at h; simp [Except.map] at h
      | ok fs' =>
        rw [hp] at h
        simp only [Except.map] at h
        obtain rfl := Except.ok.inj h
        exact getKey?_setKey_ne kvs "fields" _ k hk
    | null => rw [traverseFields_of_other p hf (fun fs hc => nomatch hc)] at h; cases h
    | bool b => rw [traverseFields_of_other p hf (fun fs hc => nomatch hc)] at h; cases h
    | num n => rw [traverseFields_of_other p hf (fun fs hc => nomatch hc)] at h; cases h
    | str s => rw [traverseFields_of_other p hf (fun fs hc => nomatch hc)] at h; cases h
    | obj o => rw [traverseFields_of_other p hf (fun fs hc => nomatch hc)] at h; cases h

theorem traverseFieldType_getKey_ne {kvs kvs' : List (String × Json)} {p : String}
    (h : traverseFieldType kvs p = .ok kvs') (k : String) (hk : k ≠ "type") :
    getKey? kvs' k = getKey? kvs k := by
  cases hf : getKey? kvs "type" with
  | none => rw [traverseFieldType_of_none p hf] at h; cases h
  | some v =>
    rw [traverseFieldType_of_some p hf] at h
    cases hv : _traverse_type v p with
    | error e => rw [hv] at h; simp [Except.map] at h
    | ok v' =>
      rw [hv] at h
      simp only [Except.map] at h
      obtain rfl := Except.ok.inj h
      exact getKey?_setKey_ne kvs "type" _ k hk

theorem traverseItems_getKey_ne {kvs kvs' : List (String × Json)} {p : String}
    (h : traverseItems kvs p = .ok kvs') (k : String) (hk : k ≠ "items") :
    getKey? kvs' k = getKey? kvs k := by
  cases hf : getKey? kvs "items" with
  | none =>
    rw [traverseItems_of_none p hf] at h
    obtain rfl := Except.ok.inj h
    rfl
  | some v =>
    rw [traverseItems_of_some p hf] at h
    cases hv : _traverse_type v p with
    | error e => rw [hv] at h; simp [Except.map] at h
    | ok v' =>
      rw [hv] at h
      simp only [Except.map] at h
      obtain rfl := Except.ok.inj h
      exact getKey?_setKey_ne kvs "items" _ k hk

/-! ### Alias erasure is untouched by the alias-adding steps -/

theorem stripObj_setKey_aliases (kvs : List (String × Json)) (v : Json) :
    stripObj (setKey kvs "aliases" v) = stripObj kvs := by
  induction kvs with
  | nil => simp [setKey, stripObj]
  | cons e rest ih =>
    obtain ⟨k, w⟩ := e
    by_cases hk : k = "aliases"
    · subst hk; simp [setKey, stripObj]
    · simp [setKey, stripObj, hk, ih]

theorem appendAlias_strip {kvs kvs' : List (String × Json)} {als : String}
    (h : appendAlias kvs als = .ok kvs') : stripObj kvs' = stripObj kvs := by
  unfold appendAlias at h
  cases hal : getKey? kvs "aliases" with
  | none =>
    rw [hal] at h
    obtain rfl := Except.ok.inj h
    exact stripObj_setKey_aliases kvs _
  | some v =>
    rw [hal] at h
    cases v <;> simp at h
    obtain rfl := h.symm
    exact stripObj_setKey_aliases kvs _

theorem add_alias_to_record_strip {kvs kvs' : List (String × Json)} {p : String}
    (h : add_alias_to_record kvs p = .ok kvs') : stripObj kvs' = stripObj kvs := by
  unfold add_alias_to_record at h
  cases hn : getKey? kvs "name" with
  | none => rw [hn] at h; obtain rfl := Except.ok.inj h; rfl
  | some v =>
    rw [hn] at h
    cases v <;> simp at h
    exact appendAlias_strip h

theorem add_alias_to_field_strip {kvs kvs' : List (String × Json)}
    (h : add_alias_to_field kvs = .ok kvs') : stripObj kvs' = stripObj kvs := by
  unfold add_alias_to_field at h
  cases hn : getKey? kvs "name" with
  | none => rw [hn] at h; cases h
  | some v =>
    rw [hn] at h
    cases v <;> simp at h
    exact appendAlias_strip h

theorem stripObj_setKey_congr {kvs : List (String × Json)} {k : String} {v v' : Json}
    (hk : k ≠ "aliases") (hv : getKey? kvs k = some v)
    (he : stripAliases v' = stripAliases v) :
    stripObj (setKey kvs k v') = stripObj kvs := by
  induction kvs with
  | nil => simp [getKey?] at hv
  | cons e rest ih =>
    obtain ⟨k₀, w⟩ := e
    by_cases hk0 : k₀ = k
    · subst hk0
      simp [getKey?] at hv
      subst hv
      simp [setKey, stripObj, hk, he]
    · simp [getKey?, hk0] at hv
      by_cases ha : k₀ = "aliases"
      · subst ha; simp [setKey, stripObj, Ne.symm hk, ih hv]
      · simp [setKey, stripObj, hk0, ha, ih hv]

/-! ### One traversal run changes nothing outside the alias lists
(joint strong induction over the mutual traversal) -/

theorem strip_frame : ∀ n : Nat,
    (∀ s p s', sizeOf s ≤ n → traverse_schema s p = .ok s' →
      stripAliases s' = stripAliases s) ∧
    (∀ fs p fs', sizeOf fs ≤ n → processFields fs p = .ok fs' →
      stripArr fs' = stripArr fs) ∧
    (∀ f p f', sizeOf f ≤ n → processField f p = .ok f' →
      stripAliases f' = stripAliases f) ∧
    (∀ t p t', sizeOf t ≤ n → _traverse_type t p = .ok t' →
      stripAliases t' = stripAliases t) ∧
    (∀ ts p ts', sizeOf ts ≤ n → traverseUnion ts p = .ok ts' →
      stripArr ts' = stripArr ts) := by
  intro n
  induction n using Nat.strong_induction_on with
  | _ n IH =>
  have hA : ∀ s p s', sizeOf s ≤ n → traverse_schema s p = .ok s' →
      stripAliases s' = stripAliases s := by
    intro s p s' hn h
    cases s with
    | obj kvs =>
      have hsz : 1 + sizeOf kvs ≤ n := by simpa using hn
      by_cases hrec : getKey? kvs "type" = some (.str "record")
      · rw [traverse_schema_record p hrec] at h
        cases hf2 : traverseFields kvs p with
        | error e => rw [hf2] at h; simp [Except.bind] at h
        | ok kvs1 =>
          rw [hf2] at h
          simp only [Except.bind] at h
          cases ha : add_alias_to_record kvs1 p with
          | error e => rw [ha] at h; simp [Except.map] at h
          | ok kvs2 =>
            rw [ha] at h
            simp only [Except.map] at h
            obtain rfl := Except.ok.inj h
            have h21 : stripObj kvs2 = stripObj kvs1 := add_alias_to_record_strip ha
            have h10 : stripObj kvs1 = stripObj kvs := by
              cases hf : getKey? kvs "fields" with
              | none =>
                rw [traverseFields_of_none p hf] at hf2
                obtain rfl := Except.ok.inj hf2
                rfl
              | some v =>
                cases v with
                | arr fs =>
                  rw [traverseFields_of_arr p hf] at hf2
                  cases hp : processFields fs p with
                  | error e => rw [hp] at hf2; simp [Except.map] at hf2
                  | ok fs' =>
                    rw [hp] at hf2
                    simp only [Except.map] at hf2
                    obtain rfl := Except.ok.inj hf2
                    have hszv : sizeOf (Json.arr fs) < sizeOf kvs := sizeOf_lt_of_getKey? hf
                    have hsz2 : sizeOf fs < n := by
                      simp at hszv
                      omega
                    have hstr : stripArr fs' = stripArr fs :=
                      (IH (sizeOf fs) hsz2).2.1 fs p fs' (le_refl _) hp
                    refine stripObj_setKey_congr (by decide) hf ?_
                    simp [stripAliases, hstr]
                | null => rw [traverseFields_of_other p hf (fun fs hc => nomatch hc)] at hf2; cases hf2
                | bool b => rw [traverseFields_of_other p hf (fun fs hc => nomatch hc)] at hf2; cases hf2
                | num m => rw [traverseFields_of_other p hf (fun fs hc => nomatch hc)] at hf2; cases hf2
                | str s => rw [traverseFields_of_other p hf (fun fs hc => nomatch hc)] at hf2; cases hf2
                | obj o => rw [traverseFields_of_other p hf (fun fs hc => nomatch hc)] at hf2; cases hf2
            simp [stripAliases, h21, h10]
      · by_cases harr : getKey? kvs "type" = some (.str "array")
        · rw [traverse_schema_array p harr] at h
          cases hi2 : traverseItems kvs p with
          | error e => rw [hi2] at h; simp [Except.map] at h
          | ok kvs1 =>
            rw [hi2] at h
            simp only [Except.map] at h
            obtain rfl := Except.ok.inj h
            have h10 : stripObj kvs1 = stripObj kvs := by
              cases hi : getKey? kvs "items" with
              | none =>
                rw [traverseItems_of_none p hi] at hi2
                obtain rfl := Except.ok.inj hi2
                rfl
              | some v =>
                rw [traverseItems_of_some p hi] at hi2
                cases hv : _traverse_type v p with
                | error e => rw [hv] at hi2; simp [Except.map] at hi2
                | ok v' =>
                  rw [hv] at hi2
                  simp only [Except.map] at hi2
                  obtain rfl := Except.ok.inj hi2
                  have hszv : sizeOf v < sizeOf kvs := sizeOf_lt_of_getKey? hi
                  have hstr : stripAliases v' = stripAliases v :=
                    (IH (sizeOf v) (by omega)).2.2.2.1 v p v' (le_refl _) hv
                  exact stripObj_setKey_congr (by decide) hi hstr
            simp [stripAliases, h10]
        · rw [traverse_schema_other p ?_] at h
          · obtain rfl := Except.ok.inj h; rfl
          · intro t ht
            constructor
            · intro hc; subst hc; exact hrec ht
            · intro hc; subst hc; exact harr ht
    | null => obtain rfl := Except.ok.inj h; rfl
    | bool b => obtain rfl := Except.ok.inj h; rfl
    | num m => obtain rfl := Except.ok.inj h; rfl
    | str s => obtain rfl := Except.ok.inj h; rfl
    | arr xs => obtain rfl := Except.ok.inj h; rfl
  have hD : ∀ t p t', sizeOf t ≤ n → _traverse_type t p = .ok t' →
      stripAliases t' = stripAliases t := by
    intro t p t' hn h
    cases t with
    | obj kvs => exact hA _ p t' hn h
    | arr ts =>
      unfold _traverse_type at h
      cases hu : traverseUnion ts p with
      | error e => simp [hu] at h
      | ok ts' =>
        simp [hu] at h
        subst h
        have hszv : sizeOf ts < n := by simp at hn; omega
        have := (IH (sizeOf ts) hszv).2.2.2.2 ts p ts' (le_refl _) hu
        simp [stripAliases, this]
    | null => obtain rfl := Except.ok.inj h; rfl
    | bool b => obtain rfl := Except.ok.inj h; rfl
    | num m => obtain rfl := Except.ok.inj h; rfl
    | str s => obtain rfl := Except.ok.inj h; rfl
  have hB : ∀ fs p fs', sizeOf fs ≤ n → processFields fs p = .ok fs' →
      stripArr fs' = stripArr fs := by
    intro fs p fs' hn h
    cases fs with
    | nil =>
      unfold processFields at h
      obtain rfl := Except.ok.inj h
      rfl
    | cons f rest =>
      have hsz : 1 + sizeOf f + sizeOf rest ≤ n := by simpa using hn
      unfold processFields at h
      cases hpf : processField f p with
      | error e => rw [hpf] at h; cases h
      | ok f' =>
        rw [hpf] at h
        cases hps : processFields rest p with
        | error e => rw [hps] at h; cases h
        | ok rest' =>
          rw [hps] at h
          obtain rfl := Except.ok.inj h
          have h1 : stripAliases f' = stripAliases f :=
            (IH (sizeOf f) (by omega)).2.2.1 f p f' (le_refl _) hpf
          have h2 : stripArr rest' = stripArr rest :=
            (IH (sizeOf rest) (by omega)).2.1 rest p rest' (le_refl _) hps
          simp [stripArr, h1, h2]
  have hC : ∀ f p f', sizeOf f ≤ n → processField f p = .ok f' →
      stripAliases f' = stripAliases f := by
    intro f p f' hn h
    cases f with
    | obj kvs =>
      have hsz : 1 + sizeOf kvs ≤ n := by simpa using hn
      unfold processField at h
      cases hft : traverseFieldType kvs p with
      | error e => simp [hft] at h
      | ok kvs1 =>
        simp only [hft] at h
        cases haf : add_alias_to_field kvs1 with
        | error e => simp [haf] at h
        | ok kvs2 =>
          simp [haf] at h
          subst h
          have h21 : stripObj kvs2 = stripObj kvs1 := add_alias_to_field_strip haf
          have h10 : stripObj kvs1 = stripObj kvs := by
            cases ht : getKey? kvs "type" with
            | none => rw [traverseFieldType_of_none p ht] at hft; cases hft
            | some v =>
              rw [traverseFieldType_of_some p ht] at hft
              cases hv : _traverse_type v p with
              | error e => rw [hv] at hft; simp [Except.map] at hft
              | ok v' =>
                rw [hv] at hft
                simp only [Except.map] at hft
                obtain rfl := Except.ok.inj hft
                have hszv : sizeOf v < sizeOf kvs := sizeOf_lt_of_getKey? ht
                have hstr : stripAliases v' = stripAliases v :=
                  (IH (sizeOf v) (by omega)).2.2.2.1 v p v' (le_refl _) hv
                exact stripObj_setKey_congr (by decide) ht hstr
          simp [stripAliases, h21, h10]
    | null => exact absurd h (by unfold processField; intro hc; cases hc)
    | bool b => exact absurd h (by unfold processField; intro hc; cases hc)
    | num m => exact absurd h (by unfold processField; intro hc; cases hc)
    | str s => exact absurd h (by unfold processField; intro hc; cases hc)
    | arr xs => exact absurd h (by unfold processField; intro hc; cases hc)
  have hE : ∀ ts p ts', sizeOf ts ≤ n → traverseUnion ts p = .ok ts' →
      stripArr ts' = stripArr ts := by
    intro ts p ts' hn h
    cases ts with
    | nil =>
      unfold traverseUnion at h
      obtain rfl := Except.ok.inj h
      rfl
    | cons t rest =>
      have hsz : 1 + sizeOf t + sizeOf rest ≤ n := by simpa using hn
      unfold traverseUnion at h
      cases t with
      | obj kvs =>
        cases hts : traverse_schema (.obj kvs) p with
        | error e => simp [hts] at h
        | ok t' =>
          simp only [hts] at h
          cases hrest : traverseUnion rest p with
          | error e => simp [hrest] at h
          | ok rest' =>
            simp [hrest] at h
            subst h
            have h1 : stripAliases t' = stripAliases (.obj kvs) :=
              (IH (sizeOf (Json.obj kvs)) (by simp at hsz; simp; omega)).1
                (.obj kvs) p t' (le_refl _) hts
            have h2 : stripArr rest' = stripArr rest :=
              (IH (sizeOf rest) (by omega)).2.2.2.2 rest p rest' (le_refl _) hrest
            simp [stripArr, h1, h2]
      | null =>
        cases hrest : traverseUnion rest p with
        | error e => simp [hrest] at h
        | ok rest' =>
          simp [hrest] at h
          subst h
          have h2 : stripArr rest' = stripArr rest :=
            (IH (sizeOf rest) (by omega)).2.2.2.2 rest p rest' (le_refl _) hrest
          simp [stripArr, h2]
      | bool b =>
        cases hrest : traverseUnion rest p with
        | error e => simp [hrest] at h
        | ok rest' =>
          simp [hrest] at h
          subst h
          have h2 : stripArr rest' = stripArr rest :=
            (IH (sizeOf rest) (by omega)).2.2.2.2 rest p rest' (le_refl _) hrest
          simp [stripArr, h2]
      | num m =>
        cases hrest : traverseUnion rest p with
        | error e => simp [hrest] at h
        | ok rest' =>
          simp [hrest] at h
          subst h
          have h2 : stripArr rest' = stripArr rest :=
            (IH (sizeOf rest) (by omega)).2.2.2.2 rest p rest' (le_refl _) hrest
          simp [stripArr, h2]
      | str s =>
        cases hrest : traverseUnion rest p with
        | error e => simp [hrest] at h
        | ok rest' =>
          simp [hrest] at h
          subst h
          have h2 : stripArr rest' = stripArr rest :=
            (IH (sizeOf rest) (by omega)).2.2.2.2 rest p rest' (le_refl _) hrest
          simp [stripArr, h2]
      | arr xs =>
        cases hrest : traverseUnion rest p with
        | error e => simp [hrest] at h
        | ok rest' =>
          simp [hrest] at h
          subst h
          have h2 : stripArr rest' = stripArr rest :=
            (IH (sizeOf rest) (by omega)).2.2.2.2 rest p rest' (le_refl _) hrest
          simp [stripArr, h2]
  exact ⟨hA, hB, hC, hD, hE⟩

/-! ### Counting alias entries and visits -/

/-- Visits of the dispatch of `_traverse_type` on a bare type value. -/
def visitTypeVal : Json → Nat
  | .obj kvs => visitCount (.obj kvs)
  | .arr ts => visitUnion ts
  | _ => 0

theorem visitCount_record {kvs : List (String × Json)}
    (h : getKey? kvs "type" = some (.str "record")) :
    visitCount (.obj kvs) = (if hasKey kvs "name" then 1 else 0) + visitFieldsOf kvs := by
  unfold visitCount
  simp [h]

theorem visitCount_array {kvs : List (String × Json)}
    (h : getKey? kvs "type" = some (.str "array")) :
    visitCount (.obj kvs) = visitItemsOf kvs := by
  unfold visitCount
  simp only [h]
  rw [if_neg (by decide)]
  simp

theorem visitCount_other {kvs : List (String × Json)}
    (h : ∀ t, getKey? kvs "type" = some (.str t) → t ≠ "record" ∧ t ≠ "array") :
    visitCount (.obj kvs) = 0 := by
  unfold visitCount
  cases htyp : getKey? kvs "type" with
  | none => rfl
  | some v =>
    cases v with
    | str t =>
      obtain ⟨h1, h2⟩ := h t htyp
      simp only [htyp]
      rw [if_neg h1, if_neg h2]
    | null => rfl
    | bool b => rfl
    | num n => rfl
    | arr xs => rfl
    | obj o => rfl

theorem visitFieldsOf_of_none {kvs : List (String × Json)}
    (h : getKey? kvs "fields" = none) : visitFieldsOf kvs = 0 := by
  induction kvs with
  | nil => rfl
  | cons e rest ih =>
    obtain ⟨k, v⟩ := e
    by_cases hk : k = "fields"
    · subst hk; simp [getKey?] at h
    · simp [getKey?, hk] at h
      unfold visitFieldsOf
      rw [if_neg hk, ih h]

theorem visitFieldsOf_of_arr {kvs : List (String × Json)} {fs : List Json}
    (h : getKey? kvs "fields" = some (.arr fs)) : visitFieldsOf kvs = visitFields fs := by
  induction kvs with
  | nil => simp [getKey?] at h
  | cons e rest ih =>
    obtain ⟨k, v⟩ := e
    by_cases hk : k = "fields"
    · subst hk
      simp [getKey?] at h
      subst h
      unfold visitFieldsOf
      rw [if_pos rfl]
    · simp [getKey?, hk] at h
      unfold visitFieldsOf
      rw [if_neg hk, ih h]

theorem visitTypeOf_of_none {kvs : List (String × Json)}
    (h : getKey? kvs "type" = none) : visitTypeOf kvs = 0 := by
  induction kvs with
  | nil => rfl
  | cons e rest ih =>
    obtain ⟨k, v⟩ := e
    by_cases hk : k = "type"
    · subst hk; simp [getKey?] at h
    · simp [getKey?, hk] at h
      unfold visitTypeOf
      rw [if_neg hk, ih h]

theorem visitTypeOf_of_some {kvs : List (String × Json)} {v : Json}
    (h : getKey? kvs "type" = some v) : visitTypeOf kvs = visitTypeVal v := by
  induction kvs with
  | nil => simp [getKey?] at h
  | cons e rest ih =>
    obtain ⟨k, w⟩ := e
    by_cases hk : k = "type"
    · subst hk
      simp [getKey?] at h
      subst h
      unfold visitTypeOf
      rw [if_pos rfl]
      cases w <;> rfl
    · simp [getKey?, hk] at h
      unfold visitTypeOf
      rw [if_neg hk, ih h]

theorem visitItemsOf_of_none {kvs : List (String × Json)}
    (h : getKey? kvs "items" = none) : visitItemsOf kvs = 0 := by
  induction kvs with
  | nil => rfl
  | cons e rest ih =>
    obtain ⟨k, v⟩ := e
    by_cases hk : k = "items"
    · subst hk; simp [getKey?] at h
    · simp [getKey?, hk] at h
      unfold visitItemsOf
      rw [if_neg hk, ih h]

theorem visitItemsOf_of_some {kvs : List (String × Json)} {v : Json}
    (h : getKey? kvs "items" = some v) : visitItemsOf kvs = visitTypeVal v := by
  induction kvs with
  | nil => simp [getKey?] at h
  | cons e rest ih =>
    obtain ⟨k, w⟩ := e
    by_cases hk : k = "items"
    · subst hk
      simp [getKey?] at h
      subst h
      unfold visitItemsOf
      rw [if_pos rfl]
      cases w <;> rfl
    · simp [getKey?, hk] at h
      unfold visitItemsOf
      rw [if_neg hk, ih h]

theorem countAliasesObj_setKey_grow {kvs : List (String × Json)} {xs : List Json} (w : Json)
    (h : getKey? kvs "aliases" = some (.arr xs)) :
    countAliasesObj (setKey kvs "aliases" (.arr (xs ++ [w])))
      = countAliasesObj kvs + 1 := by
  induction kvs with
  | nil => simp [getKey?] at h
  | cons e rest ih =>
    obtain ⟨k, v⟩ := e
    by_cases hk : k = "aliases"
    · subst hk
      simp [getKey?] at h
      subst h
      simp [setKey, countAliasesObj, aliasLen]
      omega
    · simp [getKey?, hk] at h
      simp [setKey, countAliasesObj, hk, ih h]
      omega

theorem countAliasesObj_setKey_new {kvs : List (String × Json)} (w : Json)
    (h : getKey? kvs "aliases" = none) :
    countAliasesObj (setKey kvs "aliases" (.arr [w])) = countAliasesObj kvs + 1 := by
  induction kvs with
  | nil => simp [setKey, countAliasesObj, aliasLen, countAliases]
  | cons e rest ih =>
    obtain ⟨k, v⟩ := e
    by_cases hk : k = "aliases"
    · subst hk; simp [getKey?] at h
    · simp [getKey?, hk] at h
      simp [setKey, countAliasesObj, hk, ih h]
      omega

theorem appendAlias_count {kvs kvs' : List (String × Json)} {als : String}
    (h : appendAlias kvs als = .ok kvs') :
    countAliasesObj kvs' = countAliasesObj kvs + 1 := by
  unfold appendAlias at h
  cases hal : getKey? kvs "aliases" with
  | none =>
    rw [hal] at h
    obtain rfl := Except.ok.inj h
    exact countAliasesObj_setKey_new _ hal
  | some v =>
    rw [hal] at h
    cases v <;> simp at h
    obtain rfl := h.symm
    exact countAliasesObj_setKey_grow _ hal

theorem add_alias_to_record_count {kvs kvs' : List (String × Json)} {p : String}
    (h : add_alias_to_record kvs p = .ok kvs') :
    countAliasesObj kvs' = countAliasesObj kvs + (if hasKey kvs "name" then 1 else 0) := by
  unfold add_alias_to_record at h
  cases hn : getKey? kvs "name" with
  | none =>
    rw [hn] at h
    obtain rfl := Except.ok.inj h
    simp [hasKey, hn]
  | some v =>
    rw [hn] at h
    cases v <;> simp at h
    rw [appendAlias_count h]
    simp [hasKey, hn]

theorem add_alias_to_field_count {kvs kvs' : List (String × Json)}
    (h : add_alias_to_field kvs = .ok kvs') :
    countAliasesObj kvs' = countAliasesObj kvs + 1 := by
  unfold add_alias_to_field at h
  cases hn : getKey? kvs "name" with
  | none => rw [hn] at h; cases h
  | some v =>
    rw [hn] at h
    cases v <;> simp at h
    exact appendAlias_count h

theorem countAliasesObj_setKey_congr {kvs : List (String × Json)} {k : String}
    {v v' : Json} {d : Nat} (hk : k ≠ "aliases") (hv : getKey? kvs k = some v)
    (hd : countAliases v' = countAliases v + d) :
    countAliasesObj (setKey kvs k v') = countAliasesObj kvs + d := by
  induction kvs with
  | nil => simp [getKey?] at hv
  | cons e rest ih =>
    obtain ⟨k₀, w⟩ := e
    by_cases hk0 : k₀ = k
    · subst hk0
      simp [getKey?] at hv
      subst hv
      simp [setKey, countAliasesObj, hk, hd]
      omega
    · simp [getKey?, hk0] at hv
      by_cases ha : k₀ = "aliases"
      · subst ha
        simp [setKey, countAliasesObj, Ne.symm hk, ih hv]
        omega
      · simp [setKey, countAliasesObj, hk0, ha, ih hv]
        omega

theorem countAliasesArr_cons (x : Json) (xs : List Json) :
    countAliasesArr (x :: xs) = countAliases x + countAliasesArr xs := rfl

theorem visitUnion_cons_obj (kvs : List (String × Json)) (ts : List Json) :
    visitUnion (.obj kvs :: ts) = visitCount (.obj kvs) + visitUnion ts := rfl

theorem visitUnion_cons_not_obj {t : Json} (h : ∀ kvs, t ≠ .obj kvs) (ts : List Json) :
    visitUnion (t :: ts) = visitUnion ts := by
  cases t with
  | obj o => exact absurd rfl (h o)
  | null => exact Nat.zero_add _
  | bool b => exact Nat.zero_add _
  | num m => exact Nat.zero_add _
  | str s => exact Nat.zero_add _
  | arr xs => exact Nat.zero_add _

/-! ### One traversal run appends exactly one alias entry per visited node
(joint strong induction over the mutual traversal) -/

theorem count_run : ∀ n : Nat,
    (∀ s p s', sizeOf s ≤ n → traverse_schema s p = .ok s' →
      countAliases s' = countAliases s + visitCount s ∧ visitCount s' = visitCount s) ∧
    (∀ fs p fs', sizeOf fs ≤ n → processFields fs p = .ok fs' →
      countAliasesArr fs' = countAliasesArr fs + visitFields fs ∧
        visitFields fs' = visitFields fs) ∧
    (∀ f p f', sizeOf f ≤ n → processField f p = .ok f' →
      countAliases f' = countAliases f + visitField f ∧ visitField f' = visitField f) ∧
    (∀ t p t', sizeOf t ≤ n → _traverse_type t p = .ok t' →
      countAliases t' = countAliases t + visitTypeVal t ∧
        visitTypeVal t' = visitTypeVal t) ∧
    (∀ ts p ts', sizeOf ts ≤ n → traverseUnion ts p = .ok ts' →
      countAliasesArr ts' = countAliasesArr ts + visitUnion ts ∧
        visitUnion ts' = visitUnion ts) := by
  intro n
  induction n using Nat.strong_induction_on with
  | _ n IH =>
  have hA : ∀ s p s', sizeOf s ≤ n → traverse_schema s p = .ok s' →
      countAliases s' = countAliases s + visitCount s ∧ visitCount s' = visitCount s := by
    intro s p s' hn h
    cases s with
    | obj kvs =>
      have hsz : 1 + sizeOf kvs ≤ n := by simpa using hn
      by_cases hrec : getKey? kvs "type" = some (.str "record")
      · rw [traverse_schema_record p hrec] at h
        cases hf2 : traverseFields kvs p with
        | error e => rw [hf2] at h; simp [Except.bind] at h
        | ok kvs1 =>
          rw [hf2] at h
          simp only [Except.bind] at h
          cases ha : add_alias_to_record kvs1 p with
          | error e => rw [ha] at h; simp [Except.map] at h
          | ok kvs2 =>
            rw [ha] at h
            simp only [Except.map] at h
            obtain rfl := Except.ok.inj h
            have hty1 : getKey? kvs1 "type" = some (.str "record") := by
              rw [traverseFields_getKey_ne hf2 "type" (by decide)]; exact hrec
            have hty2 : getKey? kvs2 "type" = some (.str "record") := by
              rw [add_alias_to_record_getKey_ne ha "type" (by decide)]; exact hty1
            have hnm1 : getKey? kvs1 "name" = getKey? kvs "name" :=
              traverseFields_getKey_ne hf2 "name" (by decide)
            have hnm2 : getKey? kvs2 "name" = getKey? kvs "name" := by
              rw [add_alias_to_record_getKey_ne ha "name" (by decide)]; exact hnm1
            have hfl2 : getKey? kvs2 "fields" = getKey? kvs1 "fields" :=
              add_alias_to_record_getKey_ne ha "fields" (by decide)
            have hc2 : countAliasesObj kvs2
                = countAliasesObj kvs1 + (if hasKey kvs "name" then 1 else 0) := by
              rw [add_alias_to_record_count ha]
              simp [hasKey, hnm1]
            cases hf : getKey? kvs "fields" with
            | none =>
              rw [traverseFields_of_none p hf] at hf2
              obtain rfl := Except.ok.inj hf2
              constructor
              · show countAliasesObj kvs2 = countAliasesObj kvs + visitCount (.obj kvs)
                rw [hc2, visitCount_record hrec, visitFieldsOf_of_none hf]
                omega
              · rw [visitCount_record hty2, visitCount_record hrec]
                have hv2 : visitFieldsOf kvs2 = 0 := by
                  apply visitFieldsOf_of_none
                  rw [hfl2, hf]
                rw [hv2, visitFieldsOf_of_none hf]
                simp [hasKey, hnm2]
            | some v =>
              cases v with
              | arr fs =>
                rw [traverseFields_of_arr p hf] at hf2
                cases hp : processFields fs p with
                | error e => rw [hp] at hf2; simp [Except.map] at hf2
                | ok fs' =>
                  rw [hp] at hf2
                  simp only [Except.map] at hf2
                  obtain rfl := Except.ok.inj hf2
                  have hszv : sizeOf (Json.arr fs) < sizeOf kvs := sizeOf_lt_of_getKey? hf
                  have hsz2 : sizeOf fs < n := by simp at hszv; omega
                  obtain ⟨hcB, hvB⟩ := (IH (sizeOf fs) hsz2).2.1 fs p fs' (le_refl _) hp
                  have hfl1 : getKey? (setKey kvs "fields" (Json.arr fs')) "fields"
                      = some (.arr fs') := getKey?_setKey_self kvs "fields" _
                  constructor
                  · show countAliasesObj kvs2 = countAliasesObj kvs + visitCount (.obj kvs)
                    have hc1 : countAliasesObj (setKey kvs "fields" (Json.arr fs'))
                        = countAliasesObj kvs + visitFields fs := by
                      refine countAliasesObj_setKey_congr (by decide) hf ?_
                      show countAliasesArr fs' = countAliasesArr fs + visitFields fs
                      exact hcB
                    rw [hc2, hc1, visitCount_record hrec, visitFieldsOf_of_arr hf]
                    omega
                  · rw [visitCount_record hty2, visitCount_record hrec]
                    have hv2 : visitFieldsOf kvs2 = visitFields fs' := by
                      apply visitFieldsOf_of_arr
                      rw [hfl2, hfl1]
                    rw [hv2, hvB, visitFieldsOf_of_arr hf]
                    simp [hasKey, hnm2]
              | null => rw [traverseFields_of_other p hf (fun fs hc => nomatch hc)] at hf2; cases hf2
              | bool b => rw [traverseFields_of_other p hf (fun fs hc => nomatch hc)] at hf2; cases hf2
              | num m => rw [traverseFields_of_other p hf (fun fs hc => nomatch hc)] at hf2; cases hf2
              | str st => rw [traverseFields_of_other p hf (fun fs hc => nomatch hc)] at hf2; cases hf2
              | obj o => rw [traverseFields_of_other p hf (fun fs hc => nomatch hc)] at hf2; cases hf2
      · by_cases harr : getKey? kvs "type" = some (.str "array")
        · rw [traverse_schema_array p harr] at h
          cases hi2 : traverseItems kvs p with
          | error e => rw [hi2] at h; simp [Except.map] at h
          | ok kvs1 =>
            rw [hi2] at h
            simp only [Except.map] at h
            obtain rfl := Except.ok.inj h
            have hty1 : getKey? kvs1 "type" = some (.str "array") := by
              rw [traverseItems_getKey_ne hi2 "type" (by decide)]; exact harr
            cases hi : getKey? kvs "items" with
            | none =>
              rw [traverseItems_of_none p hi] at hi2
              obtain rfl := Except.ok.inj hi2
              constructor
              · show countAliasesObj kvs = countAliasesObj kvs + visitCount (.obj kvs)
                rw [visitCount_array harr, visitItemsOf_of_none hi]
                omega
              · rfl
            | some v =>
              rw [traverseItems_of_some p hi] at hi2
              cases hv : _traverse_type v p with
              | error e => rw [hv] at hi2; simp [Except.map] at hi2
              | ok v' =>
                rw [hv] at hi2
                simp only [Except.map] at hi2
                obtain rfl := Except.ok.inj hi2
                have hszv : sizeOf v < sizeOf kvs := sizeOf_lt_of_getKey? hi
                obtain ⟨hcD, hvD⟩ :=
                  (IH (sizeOf v) (by omega)).2.2.2.1 v p v' (le_refl _) hv
                have hit1 : getKey? (setKey kvs "items" v') "items" = some v' :=
                  getKey?_setKey_self kvs "items" _
                constructor
                · show countAliasesObj (setKey kvs "items" v')
                      = countAliasesObj kvs + visitCount (.obj kvs)
                  have hc1 : countAliasesObj (setKey kvs "items" v')
                      = countAliasesObj kvs + visitTypeVal v :=
                    countAliasesObj_setKey_congr (by decide) hi hcD
                  rw [hc1, visitCount_array harr, visitItemsOf_of_some hi]
                · rw [visitCount_array hty1, visitCount_array harr]
                  rw [visitItemsOf_of_some hit1, visitItemsOf_of_some hi, hvD]
        · have hother : ∀ t, getKey? kvs "type" = some (.str t) →
              t ≠ "record" ∧ t ≠ "array" := by
            intro t ht
            constructor
            · intro hc; subst hc; exact hrec ht
            · intro hc; subst hc; exact harr ht
          rw [traverse_schema_other p hother] at h
          obtain rfl := Except.ok.inj h
          have h0 : visitCount (Json.obj kvs) = 0 := visitCount_other hother
          exact ⟨by omega, rfl⟩
    | null => obtain rfl := Except.ok.inj h; exact ⟨by simp [visitCount], rfl⟩
    | bool b => obtain rfl := Except.ok.inj h; exact ⟨by simp [visitCount], rfl⟩
    | num m => obtain rfl := Except.ok.inj h; exact ⟨by simp [visitCount], rfl⟩
    | str st => obtain rfl := Except.ok.inj h; exact ⟨by simp [visitCount], rfl⟩
    | arr xs => obtain rfl := Except.ok.inj h; exact ⟨by simp [visitCount], rfl⟩
  have hD : ∀ t p t', sizeOf t ≤ n → _traverse_type t p = .ok t' →
      countAliases t' = countAliases t + visitTypeVal t ∧
        visitTypeVal t' = visitTypeVal t := by
    intro t p t' hn h
    cases t with
    | obj kvs =>
      obtain ⟨hc, hv⟩ := hA _ p t' hn h
      have hstrip : stripAliases t' = stripAliases (.obj kvs) :=
        (strip_frame (sizeOf (Json.obj kvs))).1 (.obj kvs) p t' (le_refl _) h
      refine ⟨hc, ?_⟩
      cases t' with
      | obj o => exact hv
      | null => simp [stripAliases] at hstrip
      | bool b => simp [stripAliases] at hstrip
      | num m => simp [stripAliases] at hstrip
      | str st => simp [stripAliases] at hstrip
      | arr xs => simp [stripAliases] at hstrip
    | arr ts =>
      unfold _traverse_type at h
      cases hu : traverseUnion ts p with
      | error e => simp [hu] at h
      | ok ts' =>
        simp [hu] at h
        subst h
        have hszv : sizeOf ts < n := by simp at hn; omega
        obtain ⟨hc, hv⟩ := (IH (sizeOf ts) hszv).2.2.2.2 ts p ts' (le_refl _) hu
        exact ⟨by simpa [countAliases, visitTypeVal] using hc,
          by simpa [visitTypeVal] using hv⟩
    | null => obtain rfl := Except.ok.inj h; exact ⟨by simp [visitTypeVal], rfl⟩
    | bool b => obtain rfl := Except.ok.inj h; exact ⟨by simp [visitTypeVal], rfl⟩
    | num m => obtain rfl := Except.ok.inj h; exact ⟨by simp [visitTypeVal], rfl⟩
    | str st => obtain rfl := Except.ok.inj h; exact ⟨by simp [visitTypeVal], rfl⟩
  have hB : ∀ fs p fs', sizeOf fs ≤ n → processFields fs p = .ok fs' →
      countAliasesArr fs' = countAliasesArr fs + visitFields fs ∧
        visitFields fs' = visitFields fs := by
    intro fs p fs' hn h
    cases fs with
    | nil =>
      unfold processFields at h
      obtain rfl := Except.ok.inj h
      exact ⟨rfl, rfl⟩
    | cons f rest =>
      have hsz : 1 + sizeOf f + sizeOf rest ≤ n := by simpa using hn
      unfold processFields at h
      cases hpf : processField f p with
      | error e => rw [hpf] at h; cases h
      | ok f' =>
        rw [hpf] at h
        cases hps : processFields rest p with
        | error e => rw [hps] at h; cases h
        | ok rest' =>
          rw [hps] at h
          obtain rfl := Except.ok.inj h
          obtain ⟨hc1, hv1⟩ := (IH (sizeOf f) (by omega)).2.2.1 f p f' (le_refl _) hpf
          obtain ⟨hc2, hv2⟩ := (IH (sizeOf rest) (by omega)).2.1 rest p rest' (le_refl _) hps
          constructor
          · simp only [countAliasesArr, visitFields]
            omega
          · simp only [visitFields]
            omega
  have hC : ∀ f p f', sizeOf f ≤ n → processField f p = .ok f' →
      countAliases f' = countAliases f + visitField f ∧ visitField f' = visitField f := by
    intro f p f' hn h
    cases f with
    | obj kvs =>
      have hsz : 1 + sizeOf kvs ≤ n := by simpa using hn
      unfold processField at h
      cases hft : traverseFieldType kvs p with
      | error e => simp [hft] at h
      | ok kvs1 =>
        simp only [hft] at h
        cases haf : add_alias_to_field kvs1 with
        | error e => simp [haf] at h
        | ok kvs2 =>
          simp [haf] at h
          subst h
          cases ht : getKey? kvs "type" with
          | none => rw [traverseFieldType_of_none p ht] at hft; cases hft
          | some v =>
            rw [traverseFieldType_of_some p ht] at hft
            cases hv : _traverse_type v p with
            | error e => rw [hv] at hft; simp [Except.map] at hft
            | ok v' =>
              rw [hv] at hft
              simp only [Except.map] at hft
              obtain rfl := Except.ok.inj hft
              have hszv : sizeOf v < sizeOf kvs := sizeOf_lt_of_getKey? ht
              obtain ⟨hcD, hvD⟩ :=
                (IH (sizeOf v) (by omega)).2.2.2.1 v p v' (le_refl _) hv
              have hty1 : getKey? (setKey kvs "type" v') "type" = some v' :=
                getKey?_setKey_self kvs "type" _
              have hty2 : getKey? kvs2 "type" = some v' := by
                rw [add_alias_to_field_getKey_ne haf "type" (by decide)]; exact hty1
              constructor
              · show countAliasesObj kvs2 = countAliasesObj kvs + visitField (.obj kvs)
                have hc1 : countAliasesObj (setKey kvs "type" v')
                    = countAliasesObj kvs + visitTypeVal v :=
                  countAliasesObj_setKey_congr (by decide) ht hcD
                rw [add_alias_to_field_count haf, hc1]
                unfold visitField
                rw [visitTypeOf_of_some ht]
                omega
              · show visitField (.obj kvs2) = visitField (.obj kvs)
                unfold visitField
                rw [visitTypeOf_of_some hty2, visitTypeOf_of_some ht, hvD]
    | null => exact absurd h (by unfold processField; intro hc; cases hc)
    | bool b => exact absurd h (by unfold processField; intro hc; cases hc)
    | num m => exact absurd h (by unfold processField; intro hc; cases hc)
    | str st => exact absurd h (by unfold processField; intro hc; cases hc)
    | arr xs => exact absurd h (by unfold processField; intro hc; cases hc)
  have hE : ∀ ts p ts', sizeOf ts ≤ n → traverseUnion ts p = .ok ts' →
      countAliasesArr ts' = countAliasesArr ts + visitUnion ts ∧
        visitUnion ts' = visitUnion ts := by
    intro ts p ts' hn h
    cases ts with
    | nil =>
      unfold traverseUnion at h
      obtain rfl := Except.ok.inj h
      exact ⟨rfl, rfl⟩
    | cons t rest =>
      have hsz : 1 + sizeOf t + sizeOf rest ≤ n := by simpa using hn
      unfold traverseUnion at h
      cases t with
      | obj kvs =>
        cases hts : traverse_schema (.obj kvs) p with
        | error e => simp [hts] at h
        | ok t' =>
          simp only [hts] at h
          cases hrest : traverseUnion rest p with
          | error e => simp [hrest] at h
          | ok rest' =>
            simp [hrest] at h
            subst h
            obtain ⟨hc1, hv1⟩ :=
              (IH (sizeOf (Json.obj kvs)) (by simp at hsz; simp; omega)).1
                (.obj kvs) p t' (le_refl _) hts
            obtain ⟨hc2, hv2⟩ :=
              (IH (sizeOf rest) (by omega)).2.2.2.2 rest p rest' (le_refl _) hrest
            have hstrip : stripAliases t' = stripAliases (.obj kvs) :=
              (strip_frame (sizeOf (Json.obj kvs))).1 (.obj kvs) p t' (le_refl _) hts
            constructor
            · rw [countAliasesArr_cons, countAliasesArr_cons, visitUnion_cons_obj]
              omega
            · cases t' with
              | obj o =>
                rw [visitUnion_cons_obj, visitUnion_cons_obj]
                omega
              | null => simp [stripAliases] at hstrip
              | bool b => simp [stripAliases] at hstrip
              | num m => simp [stripAliases] at hstrip
              | str st => simp [stripAliases] at hstrip
              | arr xs => simp [stripAliases] at hstrip
      | null =>
        cases hrest : traverseUnion rest p with
        | error e => simp [hrest] at h
        | ok rest' =>
          simp [hrest] at h
          subst h
          obtain ⟨hc2, hv2⟩ :=
            (IH (sizeOf rest) (by omega)).2.2.2.2 rest p rest' (le_refl _) hrest
          constructor
          · rw [countAliasesArr_cons, countAliasesArr_cons,
              visitUnion_cons_not_obj (fun o hh => Json.noConfusion hh) rest]
            omega
          · rw [visitUnion_cons_not_obj (fun o hh => Json.noConfusion hh) rest',
              visitUnion_cons_not_obj (fun o hh => Json.noConfusion hh) rest]
            exact hv2
      | bool b =>
        cases hrest : traverseUnion rest p with
        | error e => simp [hrest] at h
        | ok rest' =>
          simp [hrest] at h
          subst h
          obtain ⟨hc2, hv2⟩ :=
            (IH (sizeOf rest) (by omega)).2.2.2.2 rest p rest' (le_refl _) hrest
          constructor
          · rw [countAliasesArr_cons, countAliasesArr_cons,
              visitUnion_cons_not_obj (fun o hh => Json.noConfusion hh) rest]
            omega
          · rw [visitUnion_cons_not_obj (fun o hh => Json.noConfusion hh) rest',
              visitUnion_cons_not_obj (fun o hh => Json.noConfusion hh) rest]
            exact hv2
      | num m =>
        cases hrest : traverseUnion rest p with
        | error e => simp [hrest] at h
        | ok rest' =>
          simp [hrest] at h
          subst h
          obtain ⟨hc2, hv2⟩ :=
            (IH (sizeOf rest) (by omega)).2.2.2.2 rest p rest' (le_refl _) hrest
          constructor
          · rw [countAliasesArr_cons, countAliasesArr_cons,
              visitUnion_cons_not_obj (fun o hh => Json.noConfusion hh) rest]
            omega
          · rw [visitUnion_cons_not_obj (fun o hh => Json.noConfusion hh) rest',
              visitUnion_cons_not_obj (fun o hh => Json.noConfusion hh) rest]
            exact hv2
      | str st =>
        cases hrest : traverseUnion rest p with
        | error e => simp [hrest] at h
        | ok rest' =>
          simp [hrest] at h
          subst h
          obtain ⟨hc2, hv2⟩ :=
            (IH (sizeOf rest) (by omega)).2.2.2.2 rest p rest' (le_refl _) hrest
          constructor
          · rw [countAliasesArr_cons, countAliasesArr_cons,
              visitUnion_cons_not_obj (fun o hh => Json.noConfusion hh) rest]
            omega
          · rw [visitUnion_cons_not_obj (fun o hh => Json.noConfusion hh) rest',
              visitUnion_cons_not_obj (fun o hh => Json.noConfusion hh) rest]
            exact hv2
      | arr xs =>
        cases hrest : traverseUnion rest p with
        | error e => simp [hrest] at h
        | ok rest' =>
          simp [hrest] at h
          subst h
          obtain ⟨hc2, hv2⟩ :=
            (IH (sizeOf rest) (by omega)).2.2.2.2 rest p rest' (le_refl _) hrest
          constructor
          · rw [countAliasesArr_cons, countAliasesArr_cons,
              visitUnion_cons_not_obj (fun o hh => Json.noConfusion hh) rest]
            omega
          · rw [visitUnion_cons_not_obj (fun o hh => Json.noConfusion hh) rest',
              visitUnion_cons_not_obj (fun o hh => Json.noConfusion hh) rest]
            exact hv2
  exact ⟨hA, hB, hC, hD, hE⟩

/-! ### Success and failure of the traversal -/

/-- Whether an `Except` computation succeeded. -/
def exceptOk {α : Type} : Except String α → Bool
  | .ok _ => true
  | .error _ => false

theorem exceptOk_false_iff {α : Type} (x : Except String α) :
    exceptOk x = false ↔ ∃ e, x = .error e := by
  cases x with
  | error e => simp [exceptOk]
  | ok a => simp [exceptOk]

/-- Dispatch of `_traverse_type` for the shape predicate. -/
def shapeTypeVal : Json → Bool
  | .obj kvs => shapeOk (.obj kvs)
  | .arr ts => shapeUnion ts
  | _ => true

/-- Dispatch of `_traverse_type` for the required-keys predicate. -/
def reqTypeVal : Json → Bool
  | .obj kvs => hasRequiredKeys (.obj kvs)
  | .arr ts => reqUnion ts
  | _ => true

theorem add_alias_to_record_ok (kvs : List (String × Json)) (p : String)
    (hnm : nameOk kvs = true) (hal : aliasesOk kvs = true) :
    ∃ kvs', add_alias_to_record kvs p = .ok kvs' := by
  cases hn : getKey? kvs "name" with
  | none => exact ⟨kvs, add_alias_to_record_of_no_name hn⟩
  | some v =>
    cases v with
    | str s => exact ⟨_, add_alias_to_record_eq hn hal⟩
    | null => simp [nameOk, hn] at hnm
    | bool b => simp [nameOk, hn] at hnm
    | num m => simp [nameOk, hn] at hnm
    | arr xs => simp [nameOk, hn] at hnm
    | obj o => simp [nameOk, hn] at hnm

theorem add_alias_to_field_isOk (kvs : List (String × Json))
    (hnm : nameOk kvs = true) (hal : aliasesOk kvs = true) :
    exceptOk (add_alias_to_field kvs) = hasKey kvs "name" := by
  cases hn : getKey? kvs "name" with
  | none =>
    rw [add_alias_to_field_of_no_name hn]
    simp [exceptOk, hasKey, hn]
  | some v =>
    cases v with
    | str s =>
      rw [add_alias_to_field_eq hn hal]
      simp [exceptOk, hasKey, hn]
    | null => simp [nameOk, hn] at hnm
    | bool b => simp [nameOk, hn] at hnm
    | num m => simp [nameOk, hn] at hnm
    | arr xs => simp [nameOk, hn] at hnm
    | obj o => simp [nameOk, hn] at hnm

/-! ### Walk lemmas for the shape and required-keys predicates -/

theorem shapeOk_record {kvs : List (String × Json)}
    (h : getKey? kvs "type" = some (.str "record")) :
    shapeOk (.obj kvs) = (nameOk kvs && aliasesOk kvs && shapeFieldsOf kvs) := by
  unfold shapeOk
  simp [h]

theorem shapeOk_array {kvs : List (String × Json)}
    (h : getKey? kvs "type" = some (.str "array")) :
    shapeOk (.obj kvs) = shapeItemsOf kvs := by
  unfold shapeOk
  simp only [h]
  rw [if_neg (by decide)]
  simp

theorem hasRequiredKeys_record {kvs : List (String × Json)}
    (h : getKey? kvs "type" = some (.str "record")) :
    hasRequiredKeys (.obj kvs) = reqFieldsOf kvs := by
  unfold hasRequiredKeys
  simp [h]

theorem hasRequiredKeys_array {kvs : List (String × Json)}
    (h : getKey? kvs "type" = some (.str "array")) :
    hasRequiredKeys (.obj kvs) = reqItemsOf kvs := by
  unfold hasRequiredKeys
  simp only [h]
  rw [if_neg (by decide)]
  simp

theorem hasRequiredKeys_other {kvs : List (String × Json)}
    (h : ∀ t, getKey? kvs "type" = some (.str t) → t ≠ "record" ∧ t ≠ "array") :
    hasRequiredKeys (.obj kvs) = true := by
  unfold hasRequiredKeys
  cases htyp : getKey? kvs "type" with
  | none => rfl
  | some v =>
    cases v with
    | str t =>
      obtain ⟨h1, h2⟩ := h t htyp
      simp only [htyp]
      rw [if_neg h1, if_neg h2]
    | null => rfl
    | bool b => rfl
    | num n => rfl
    | arr xs => rfl
    | obj o => rfl

theorem shapeFieldsOf_of_none {kvs : List (String × Json)}
    (h : getKey? kvs "fields" = none) : shapeFieldsOf kvs = true := by
  induction kvs with
  | nil => rfl
  | cons e rest ih =>
    obtain ⟨k, v⟩ := e
    by_cases hk : k = "fields"
    · subst hk; simp [getKey?] at h
    · simp [getKey?, hk] at h
      unfold shapeFieldsOf
      rw [if_neg hk, ih h]

theorem shapeFieldsOf_of_arr {kvs : List (String × Json)} {fs : List Json}
    (h : getKey? kvs "fields" = some (.arr fs)) : shapeFieldsOf kvs = shapeFields fs := by
  induction kvs with
  | nil => simp [getKey?] at h
  | cons e rest ih =>
    obtain ⟨k, v⟩ := e
    by_cases hk : k = "fields"
    · subst hk
      simp [getKey?] at h
      subst h
      unfold shapeFieldsOf
      rw [if_pos rfl]
    · simp [getKey?, hk] at h
      unfold shapeFieldsOf
      rw [if_neg hk, ih h]

theorem shapeFieldsOf_of_other {kvs : List (String × Json)} {v : Json}
    (h : getKey? kvs "fields" = some v) (hv : ∀ fs, v ≠ .arr fs) :
    shapeFieldsOf kvs = false := by
  induction kvs with
  | nil => simp [getKey?] at h
  | cons e rest ih =>
    obtain ⟨k, w⟩ := e
    by_cases hk : k = "fields"
    · subst hk
      simp [getKey?] at h
      subst h
      unfold shapeFieldsOf
      rw [if_pos rfl]
      cases w with
      | arr fs => exact absurd rfl (hv fs)
      | null => rfl
      | bool b => rfl
      | num n => rfl
      | str s => rfl
      | obj o => rfl
    · simp [getKey?, hk] at h
      unfold shapeFieldsOf
      rw [if_neg hk, ih h]

theorem reqFieldsOf_of_none {kvs : List (String × Json)}
    (h : getKey? kvs "fields" = none) : reqFieldsOf kvs = true := by
  induction kvs with
  | nil => rfl
  | cons e rest ih =>
    obtain ⟨k, v⟩ := e
    by_cases hk : k = "fields"
    · subst hk; simp [getKey?] at h
    · simp [getKey?, hk] at h
      unfold reqFieldsOf
      rw [if_neg hk, ih h]

theorem reqFieldsOf_of_arr {kvs : List (String × Json)} {fs : List Json}
    (h : getKey? kvs "fields" = some (.arr fs)) : reqFieldsOf kvs = reqFields fs := by
  induction kvs with
  | nil => simp [getKey?] at h
  | cons e rest ih =>
    obtain ⟨k, v⟩ := e
    by_cases hk : k = "fields"
    · subst hk
      simp [getKey?] at h
      subst h
      unfold reqFieldsOf
      rw [if_pos rfl]
    · simp [getKey?, hk] at h
      unfold reqFieldsOf
      rw [if_neg hk, ih h]

theorem shapeTypeOf_of_none {kvs : List (String × Json)}
    (h : getKey? kvs "type" = none) : shapeTypeOf kvs = true := by
  induction kvs with
  | nil => rfl
  | cons e rest ih =>
    obtain ⟨k, v⟩ := e
    by_cases hk : k = "type"
    · subst hk; simp [getKey?] at h
    · simp [getKey?, hk] at h
      unfold shapeTypeOf
      rw [if_neg hk, ih h]

theorem shapeTypeOf_of_some {kvs : List (String × Json)} {v : Json}
    (h : getKey? kvs "type" = some v) : shapeTypeOf kvs = shapeTypeVal v := by
  induction kvs with
  | nil => simp [getKey?] at h
  | cons e rest ih =>
    obtain ⟨k, w⟩ := e
    by_cases hk : k = "type"
    · subst hk
      simp [getKey?] at h
      subst h
      unfold shapeTypeOf
      rw [if_pos rfl]
      cases w <;> rfl
    · simp [getKey?, hk] at h
      unfold shapeTypeOf
      rw [if_neg hk, ih h]

theorem reqTypeOf_of_none {kvs : List (String × Json)}
    (h : getKey? kvs "type" = none) : reqTypeOf kvs = false := by
  induction kvs with
  | nil => rfl
  | cons e rest ih =>
    obtain ⟨k, v⟩ := e
    by_cases hk : k = "type"
    · subst hk; simp [getKey?] at h
    · simp [getKey?, hk] at h
      unfold reqTypeOf
      rw [if_neg hk, ih h]

theorem reqTypeOf_of_some {kvs : List (String × Json)} {v : Json}
    (h : getKey? kvs "type" = some v) : reqTypeOf kvs = reqTypeVal v := by
  induction kvs with
  | nil => simp [getKey?] at h
  | cons e rest ih =>
    obtain ⟨k, w⟩ := e
    by_cases hk : k = "type"
    · subst hk
      simp [getKey?] at h
      subst h
      unfold reqTypeOf
      rw [if_pos rfl]
      cases w <;> rfl
    · simp [getKey?, hk] at h
      unfold reqTypeOf
      rw [if_neg hk, ih h]

theorem shapeItemsOf_of_none {kvs : List (String × Json)}
    (h : getKey? kvs "items" = none) : shapeItemsOf kvs = true := by
  induction kvs with
  | nil => rfl
  | cons e rest ih =>
    obtain ⟨k, v⟩ := e
    by_cases hk : k = "items"
    · subst hk; simp [getKey?] at h
    · simp [getKey?, hk] at h
      unfold shapeItemsOf
      rw [if_neg hk, ih h]

theorem shapeItemsOf_of_some {kvs : List (String × Json)} {v : Json}
    (h : getKey? kvs "items" = some v) : shapeItemsOf kvs = shapeTypeVal v := by
  induction kvs with
  | nil => simp [getKey?] at h
  | cons e rest ih =>
    obtain ⟨k, w⟩ := e
    by_cases hk : k = "items"
    · subst hk
      simp [getKey?] at h
      subst h
      unfold shapeItemsOf
      rw [if_pos rfl]
      cases w <;> rfl
    · simp [getKey?, hk] at h
      unfold shapeItemsOf
      rw [if_neg hk, ih h]

theorem reqItemsOf_of_none {kvs : List (String × Json)}
    (h : getKey? kvs "items" = none) : reqItemsOf kvs = true := by
  induction kvs with
  | nil => rfl
  | cons e rest ih =>
    obtain ⟨k, v⟩ := e
    by_cases hk : k = "items"
    · subst hk; simp [getKey?] at h
    · simp [getKey?, hk] at h
      unfold reqItemsOf
      rw [if_neg hk, ih h]

theorem reqItemsOf_of_some {kvs : List (String × Json)} {v : Json}
    (h : getKey? kvs "items" = some v) : reqItemsOf kvs = reqTypeVal v := by
  induction kvs with
  | nil => simp [getKey?] at h
  | cons e rest ih =>
    obtain ⟨k, w⟩ := e
    by_cases hk : k = "items"
    · subst hk
      simp [getKey?] at h
      subst h
      unfold reqItemsOf
      rw [if_pos rfl]
      cases w <;> rfl
    · simp [getKey?, hk] at h
      unfold reqItemsOf
      rw [if_neg hk, ih h]

theorem shapeFields_cons (f : Json) (fs : List Json) :
    shapeFields (f :: fs) = (shapeField f && shapeFields fs) := rfl

theorem reqFields_cons (f : Json) (fs : List Json) :
    reqFields (f :: fs) = (reqField f && reqFields fs) := rfl

theorem shapeUnion_cons_obj (kvs : List (String × Json)) (ts : List Json) :
    shapeUnion (.obj kvs :: ts) = (shapeOk (.obj kvs) && shapeUnion ts) := rfl

theorem reqUnion_cons_obj (kvs : List (String × Json)) (ts : List Json) :
    reqUnion (.obj kvs :: ts) = (hasRequiredKeys (.obj kvs) && reqUnion ts) := rfl

theorem shapeUnion_cons_not_obj {t : Json} (h : ∀ kvs, t ≠ .obj kvs) (ts : List Json) :
    shapeUnion (t :: ts) = shapeUnion ts := by
  cases t with
  | obj o => exact absurd rfl (h o)
  | null => exact Bool.true_and _
  | bool b => exact Bool.true_and _
  | num m => exact Bool.true_and _
  | str s => exact Bool.true_and _
  | arr xs => exact Bool.true_and _

theorem reqUnion_cons_not_obj {t : Json} (h : ∀ kvs, t ≠ .obj kvs) (ts : List Json) :
    reqUnion (t :: ts) = reqUnion ts := by
  cases t with
  | obj o => exact absurd rfl (h o)
  | null => exact Bool.true_and _
  | bool b => exact Bool.true_and _
  | num m => exact Bool.true_and _
  | str s => exact Bool.true_and _
  | arr xs => exact Bool.true_and _

/-! ### The traversal fails exactly on a missing required field key
(joint strong induction over the mutual traversal) -/

theorem ok_iff_required : ∀ n : Nat,
    (∀ s p, sizeOf s ≤ n → shapeOk s = true →
      exceptOk (traverse_schema s p) = hasRequiredKeys s) ∧
    (∀ fs p, sizeOf fs ≤ n → shapeFields fs = true →
      exceptOk (processFields fs p) = reqFields fs) ∧
    (∀ f p, sizeOf f ≤ n → shapeField f = true →
      exceptOk (processField f p) = reqField f) ∧
    (∀ t p, sizeOf t ≤ n → shapeTypeVal t = true →
      exceptOk (_traverse_type t p) = reqTypeVal t) ∧
    (∀ ts p, sizeOf ts ≤ n → shapeUnion ts = true →
      exceptOk (traverseUnion ts p) = reqUnion ts) := by
  intro n
  induction n using Nat.strong_induction_on with
  | _ n IH =>
  have hA : ∀ s p, sizeOf s ≤ n → shapeOk s = true →
      exceptOk (traverse_schema s p) = hasRequiredKeys s := by
    intro s p hn hs
    cases s with
    | obj kvs =>
      have hsz : 1 + sizeOf kvs ≤ n := by simpa using hn
      by_cases hrec : getKey? kvs "type" = some (.str "record")
      · rw [traverse_schema_record p hrec, hasRequiredKeys_record hrec]
        rw [shapeOk_record hrec] at hs
        simp only [Bool.and_eq_true] at hs
        obtain ⟨⟨hnm, hal⟩, hsf⟩ := hs
        cases hf : getKey? kvs "fields" with
        | none =>
          rw [traverseFields_of_none p hf, reqFieldsOf_of_none hf]
          obtain ⟨kvs2, hadd⟩ := add_alias_to_record_ok kvs p hnm hal
          simp [Except.bind, Except.map, hadd, exceptOk]
        | some v =>
          cases v with
          | arr fs =>
            have hsf' : shapeFields fs = true := by
              rw [shapeFieldsOf_of_arr hf] at hsf; exact hsf
            have hszf : sizeOf (Json.arr fs) < sizeOf kvs := sizeOf_lt_of_getKey? hf
            have hB' := (IH (sizeOf fs) (by simp at hszf; omega)).2.1
              fs p (le_refl _) hsf'
            rw [traverseFields_of_arr p hf, reqFieldsOf_of_arr hf, ← hB']
            cases hp : processFields fs p with
            | error e => simp [Except.bind, Except.map, exceptOk]
            | ok fs' =>
              have hnm1 : nameOk (setKey kvs "fields" (Json.arr fs')) = true := by
                unfold nameOk
                rw [getKey?_setKey_ne kvs "fields" _ "name" (by decide)]
                exact hnm
              have hal1 : aliasesOk (setKey kvs "fields" (Json.arr fs')) = true := by
                unfold aliasesOk
                rw [getKey?_setKey_ne kvs "fields" _ "aliases" (by decide)]
                exact hal
              obtain ⟨kvs2, hadd⟩ :=
                add_alias_to_record_ok (setKey kvs "fields" (Json.arr fs')) p hnm1 hal1
              simp [Except.bind, Except.map, hadd, exceptOk]
          | null =>
            rw [shapeFieldsOf_of_other hf (fun fs hc => Json.noConfusion hc)] at hsf
            cases hsf
          | bool b =>
            rw [shapeFieldsOf_of_other hf (fun fs hc => Json.noConfusion hc)] at hsf
            cases hsf
          | num m =>
            rw [shapeFieldsOf_of_other hf (fun fs hc => Json.noConfusion hc)] at hsf
            cases hsf
          | str st =>
            rw [shapeFieldsOf_of_other hf (fun fs hc => Json.noConfusion hc)] at hsf
            cases hsf
          | obj o =>
            rw [shapeFieldsOf_of_other hf (fun fs hc => Json.noConfusion hc)] at hsf
            cases hsf
      · by_cases harr : getKey? kvs "type" = some (.str "array")
        · rw [traverse_schema_array p harr, hasRequiredKeys_array harr]
          rw [shapeOk_array harr] at hs
          cases hi : getKey? kvs "items" with
          | none =>
            rw [traverseItems_of_none p hi, reqItemsOf_of_none hi]
            simp [Except.map, exceptOk]
          | some v =>
            have hsv : shapeTypeVal v = true := by
              rw [shapeItemsOf_of_some hi] at hs; exact hs
            have hszv : sizeOf v < sizeOf kvs := sizeOf_lt_of_getKey? hi
            have hD' := (IH (sizeOf v) (by omega)).2.2.2.1 v p (le_refl _) hsv
            rw [traverseItems_of_some p hi, reqItemsOf_of_some hi, ← hD']
            cases hv : _traverse_type v p <;> simp [Except.map, exceptOk]
        · have hother : ∀ t, getKey? kvs "type" = some (.str t) →
              t ≠ "record" ∧ t ≠ "array" := by
            intro t ht
            constructor
            · intro hc; subst hc; exact hrec ht
            · intro hc; subst hc; exact harr ht
          rw [traverse_schema_other p hother, hasRequiredKeys_other hother]
          rfl
    | null => rfl
    | bool b => rfl
    | num m => rfl
    | str st => rfl
    | arr xs => rfl
  have hD : ∀ t p, sizeOf t ≤ n → shapeTypeVal t = true →
      exceptOk (_traverse_type t p) = reqTypeVal t := by
    intro t p hn hs
    cases t with
    | obj kvs => exact hA (.obj kvs) p hn hs
    | arr ts =>
      have hE' := (IH (sizeOf ts) (by simp at hn; omega)).2.2.2.2 ts p (le_refl _) hs
      unfold _traverse_type
      rw [show reqTypeVal (Json.arr ts) = reqUnion ts from rfl, ← hE']
      cases hu : traverseUnion ts p <;> simp [hu, exceptOk]
    | null => rfl
    | bool b => rfl
    | num m => rfl
    | str st => rfl
  have hB : ∀ fs p, sizeOf fs ≤ n → shapeFields fs = true →
      exceptOk (processFields fs p) = reqFields fs := by
    intro fs p hn hs
    cases fs with
    | nil => rfl
    | cons f rest =>
      have hsz : 1 + sizeOf f + sizeOf rest ≤ n := by simpa using hn
      rw [shapeFields_cons] at hs
      simp only [Bool.and_eq_true] at hs
      obtain ⟨hsf, hsr⟩ := hs
      have hC' := (IH (sizeOf f) (by omega)).2.2.1 f p (le_refl _) hsf
      have hB' := (IH (sizeOf rest) (by omega)).2.1 rest p (le_refl _) hsr
      unfold processFields
      rw [reqFields_cons, ← hC', ← hB']
      cases hpf : processField f p with
      | error e => simp [exceptOk]
      | ok f' =>
        simp only [exceptOk]
        cases hps : processFields rest p <;> simp [exceptOk]
  have hC : ∀ f p, sizeOf f ≤ n → shapeField f = true →
      exceptOk (processField f p) = reqField f := by
    intro f p hn hs
    cases f with
    | obj kvs =>
      have hsz : 1 + sizeOf kvs ≤ n := by simpa using hn
      have hs' : (nameOk kvs && aliasesOk kvs && shapeTypeOf kvs) = true := hs
      simp only [Bool.and_eq_true] at hs'
      obtain ⟨⟨hnm, hal⟩, hst⟩ := hs'
      show exceptOk (processField (.obj kvs) p) = (hasKey kvs "name" && reqTypeOf kvs)
      unfold processField
      cases ht : getKey? kvs "type" with
      | none =>
        rw [traverseFieldType_of_none p ht, reqTypeOf_of_none ht]
        simp [exceptOk]
      | some v =>
        have hsv : shapeTypeVal v = true := by
          rw [shapeTypeOf_of_some ht] at hst; exact hst
        have hszv : sizeOf v < sizeOf kvs := sizeOf_lt_of_getKey? ht
        have hD' := (IH (sizeOf v) (by omega)).2.2.2.1 v p (le_refl _) hsv
        rw [traverseFieldType_of_some p ht, reqTypeOf_of_some ht, ← hD']
        cases hv : _traverse_type v p with
        | error e => simp [Except.map, exceptOk]
        | ok v' =>
          have hnm1 : nameOk (setKey kvs "type" v') = true := by
            unfold nameOk
            rw [getKey?_setKey_ne kvs "type" v' "name" (by decide)]
            exact hnm
          have hal1 : aliasesOk (setKey kvs "type" v') = true := by
            unfold aliasesOk
            rw [getKey?_setKey_ne kvs "type" v' "aliases" (by decide)]
            exact hal
          have hiso := add_alias_to_field_isOk (setKey kvs "type" v') hnm1 hal1
          have hkey : hasKey (setKey kvs "type" v') "name" = hasKey kvs "name" := by
            unfold hasKey
            rw [getKey?_setKey_ne kvs "type" v' "name" (by decide)]
          rw [hkey] at hiso
          cases hadd : add_alias_to_field (setKey kvs "type" v') with
          | error e =>
            rw [hadd] at hiso
            simp only [exceptOk] at hiso
            simp [Except.map, hadd, exceptOk, ← hiso]
          | ok kvs2 =>
            rw [hadd] at hiso
            simp only [exceptOk] at hiso
            simp [Except.map, hadd, exceptOk, ← hiso]
    | null => cases hs
    | bool b => cases hs
    | num m => cases hs
    | str st => cases hs
    | arr xs => cases hs
  have hE : ∀ ts p, sizeOf ts ≤ n → shapeUnion ts = true →
      exceptOk (traverseUnion ts p) = reqUnion ts := by
    intro ts p hn hs
    cases ts with
    | nil => rfl
    | cons t rest =>
      have hsz : 1 + sizeOf t + sizeOf rest ≤ n := by simpa using hn
      unfold traverseUnion
      cases t with
      | obj kvs =>
        rw [shapeUnion_cons_obj] at hs
        simp only [Bool.and_eq_true] at hs
        obtain ⟨hso, hsu⟩ := hs
        have hA' := (IH (sizeOf (Json.obj kvs)) (by simp at hsz; simp; omega)).1
          (.obj kvs) p (le_refl _) hso
        have hE' := (IH (sizeOf rest) (by omega)).2.2.2.2 rest p (le_refl _) hsu
        rw [reqUnion_cons_obj, ← hA', ← hE']
        cases hts : traverse_schema (.obj kvs) p with
        | error e => simp [hts, exceptOk]
        | ok t' =>
          simp only [hts]
          cases hrest : traverseUnion rest p <;> simp [hrest, exceptOk]
      | null =>
        rw [shapeUnion_cons_not_obj (fun o hh => Json.noConfusion hh) rest] at hs
        have hE' := (IH (sizeOf rest) (by omega)).2.2.2.2 rest p (le_refl _) hs
        rw [reqUnion_cons_not_obj (fun o hh => Json.noConfusion hh) rest, ← hE']
        cases hrest : traverseUnion rest p <;> simp [exceptOk]
      | bool b =>
        rw [shapeUnion_cons_not_obj (fun o hh => Json.noConfusion hh) rest] at hs
        have hE' := (IH (sizeOf rest) (by omega)).2.2.2.2 rest p (le_refl _) hs
        rw [reqUnion_cons_not_obj (fun o hh => Json.noConfusion hh) rest, ← hE']
        cases hrest : traverseUnion rest p <;> simp [exceptOk]
      | num m =>
        rw [shapeUnion_cons_not_obj (fun o hh => Json.noConfusion hh) rest] at hs
        have hE' := (IH (sizeOf rest) (by omega)).2.2.2.2 rest p (le_refl _) hs
        rw [reqUnion_cons_not_obj (fun o hh => Json.noConfusion hh) rest, ← hE']
        cases hrest : traverseUnion rest p <;> simp [exceptOk]
      | str st =>
        rw [shapeUnion_cons_not_obj (fun o hh => Json.noConfusion hh) rest] at hs
        have hE' := (IH (sizeOf rest) (by omega)).2.2.2.2 rest p (le_refl _) hs
        rw [reqUnion_cons_not_obj (fun o hh => Json.noConfusion hh) rest, ← hE']
        cases hrest : traverseUnion rest p <;> simp [exceptOk]
      | arr xs =>
        rw [shapeUnion_cons_not_obj (fun o hh => Json.noConfusion hh) rest] at hs
        have hE' := (IH (sizeOf rest) (by omega)).2.2.2.2 rest p (le_refl _) hs
        rw [reqUnion_cons_not_obj (fun o hh => Json.noConfusion hh) rest, ← hE']
        cases hrest : traverseUnion rest p <;> simp [exceptOk]
  exact ⟨hA, hB, hC, hD, hE⟩

/-! ### Facts about the Name Caser -/

theorem upper_bounds {c : Char} (h : c.isUpper = true) :
    65 ≤ c.toNat ∧ c.toNat ≤ 90 := by
  simpa [Char.isUpper] using h

theorem upper_of_toNat_bounds {c : Char} (h1 : 65 ≤ c.toNat) (h2 : c.toNat ≤ 90) :
    c.isUpper = true := by
  have hc : c = Char.ofNat c.toNat := (Char.ofNat_toNat c).symm
  set m := c.toNat with hm
  rw [hc]
  interval_cases m <;> decide

theorem toLower_of_not_upper {c : Char} (h : c.isUpper = false) : c.toLower = c := by
  unfold Char.toLower
  rw [if_neg]
  intro hc
  obtain ⟨h1, h2⟩ := hc
  rw [upper_of_toNat_bounds h1 h2] at h
  cases h

theorem isUpper_toLower_eq_false (c : Char) : c.toLower.isUpper = false := by
  cases hu : c.isUpper with
  | false => rw [toLower_of_not_upper hu]; exact hu
  | true =>
    obtain ⟨h1, h2⟩ := upper_bounds hu
    have hc : c = Char.ofNat c.toNat := (Char.ofNat_toNat c).symm
    set m := c.toNat with hm
    rw [hc]
    interval_cases m <;> decide

theorem toLower_ne_underscore {c : Char} (h : c.isAlphanum = true) : c.toLower ≠ '_' := by
  cases hu : c.isUpper with
  | false =>
    rw [toLower_of_not_upper hu]
    intro heq
    rw [heq] at h
    exact absurd h (by decide)
  | true =>
    obtain ⟨h1, h2⟩ := upper_bounds hu
    have hc : c = Char.ofNat c.toNat := (Char.ofNat_toNat c).symm
    set m := c.toNat with hm
    rw [hc]
    interval_cases m <;> decide

theorem toLower_idem (c : Char) : c.toLower.toLower = c.toLower :=
  toLower_of_not_upper (isUpper_toLower_eq_false c)

theorem snakeTail_not_upper (cs : List Char) :
    ∀ c ∈ snakeTail cs, c.isUpper = false := by
  intro c hc
  unfold snakeTail at hc
  simp only [List.mem_flatMap] at hc
  obtain ⟨a, _, hmem⟩ := hc
  by_cases hu : a.isUpper = true
  · rw [if_pos hu] at hmem
    simp at hmem
    cases hmem with
    | inl h => subst h; decide
    | inr h => subst h; exact isUpper_toLower_eq_false a
  · rw [if_neg hu] at hmem
    simp at hmem
    subst hmem
    exact isUpper_toLower_eq_false a

theorem snakeTail_fixed {cs : List Char} (h : ∀ c ∈ cs, c.isUpper = false) :
    snakeTail cs = cs := by
  induction cs with
  | nil => rfl
  | cons c rest ih =>
    have hc := h c (List.mem_cons_self c rest)
    have hrest := ih fun x hx => h x (List.mem_cons_of_mem c hx)
    unfold snakeTail at *
    simp only [List.flatMap_cons, hc, if_neg, Bool.false_eq_true, not_false_eq_true,
      ite_false]
    rw [toLower_of_not_upper hc, hrest]
    rfl

theorem snakeTail_count {cs : List Char} (h : ∀ c ∈ cs, c.isAlphanum = true) :
    (snakeTail cs).count '_' = cs.countP (fun c => c.isUpper) := by
  induction cs with
  | nil => rfl
  | cons c rest ih =>
    have hc := h c (List.mem_cons_self c rest)
    have hrest := ih fun x hx => h x (List.mem_cons_of_mem c hx)
    have hne : (c.toLower == '_') = false := by
      simp only [beq_eq_false_iff_ne, ne_eq]
      exact toLower_ne_underscore hc
    unfold snakeTail at *
    simp only [List.flatMap_cons]
    rw [List.count_append, hrest]
    by_cases hu : c.isUpper = true
    · rw [if_pos hu]
      simp [List.count_cons, List.countP_cons, hne, hu]
      omega
    · rw [if_neg hu]
      simp only [Bool.not_eq_true] at hu
      simp [List.count_cons, List.countP_cons, hne, hu]

theorem to_snake_case_not_upper (s : String) :
    ∀ c ∈ (to_snake_case s).toList, c.isUpper = false := by
  obtain ⟨cs⟩ := s
  cases cs with
  | nil => intro c hc; exact absurd hc (by simp [to_snake_case])
  | cons c rest =>
    intro x hx
    have hx' : x ∈ c.toLower :: snakeTail rest := hx
    cases hx' with
    | head => exact isUpper_toLower_eq_false c
    | tail _ hmem => exact snakeTail_not_upper rest x hmem

theorem to_snake_case_of_not_upper {s : String}
    (h : ∀ c ∈ s.toList, c.isUpper = false) : to_snake_case s = s := by
  obtain ⟨cs⟩ := s
  cases cs with
  | nil => rfl
  | cons c rest =>
    show String.mk (c.toLower :: snakeTail rest) = String.mk (c :: rest)
    rw [toLower_of_not_upper (h c (List.mem_cons_self c rest)),
      snakeTail_fixed fun x hx => h x (List.mem_cons_of_mem c hx)]

/-! ### Facts about prefix removal -/

theorem removePre_of_not_prefix {s pre : String}
    (h : pre.toList.isPrefixOf s.toList = false) : removePre s pre = s := by
  unfold removePre
  rw [if_neg]
  intro hc
  rw [h] at hc
  cases hc

theorem removePre_append (pre r : String) : removePre (pre ++ r) pre = r := by
  unfold removePre
  have hl : (pre ++ r).toList = pre.toList ++ r.toList := by
    simp [String.toList]
  rw [if_pos]
  · rw [hl, List.drop_left]
    cases r
    rfl
  · rw [hl]
    rw [List.isPrefixOf_iff_prefix]
    exact List.prefix_append _ _

theorem removePre_self (p : String) : removePre p p = "" := by
  have h := removePre_append p ""
  simpa using h

/-! ### Concrete schemas used by the examples and witnesses -/

/-- The end-to-end example input schema of the spec (§8): record `UserOrder`
with a string field `orderId` and an array-of-`LineItem` field `lineItems`. -/
def exampleSchema : Json :=
  .obj [("type", .str "record"), ("name", .str "UserOrder"),
    ("fields", .arr [
      .obj [("name", .str "orderId"), ("type", .str "string")],
      .obj [("name", .str "lineItems"),
        ("type", .obj [("type", .str "array"),
          ("items", .obj [("type", .str "record"), ("name", .str "LineItem"),
            ("fields", .arr [
              .obj [("name", .str "skuCode"), ("type", .str "string")]])])])]])]

/-- The example schema after one traversal run with the `"User"` subject
name: every record and field gains its snake_case alias, appended at the end
of its object; everything else is unchanged. -/
def exampleResult : Json :=
  .obj [("type", .str "record"), ("name", .str "UserOrder"),
    ("fields", .arr [
      .obj [("name", .str "orderId"), ("type", .str "string"),
        ("aliases", .arr [.str "order_id"])],
      .obj [("name", .str "lineItems"),
        ("type", .obj [("type", .str "array"),
          ("items", .obj [("type", .str "record"), ("name", .str "LineItem"),
            ("fields", .arr [
              .obj [("name", .str "skuCode"), ("type", .str "string"),
                ("aliases", .arr [.str "sku_code"])]]),
            ("aliases", .arr [.str "line_item"])])]),
        ("aliases", .arr [.str "line_items"])]]),
    ("aliases", .arr [.str "order"])]

/-- The example schema after a second traversal run: every alias list carries
a second, duplicate entry. -/
def exampleTwice : Json :=
  .obj [("type", .str "record"), ("name", .str "UserOrder"),
    ("fields", .arr [
      .obj [("name", .str "orderId"), ("type", .str "string"),
        ("aliases", .arr [.str "order_id", .str "order_id"])],
      .obj [("name", .str "lineItems"),
        ("type", .obj [("type", .str "array"),
          ("items", .obj [("type", .str "record"), ("name", .str "LineItem"),
            ("fields", .arr [
              .obj [("name", .str "skuCode"), ("type", .str "string"),
                ("aliases", .arr [.str "sku_code", .str "sku_code"])]]),
            ("aliases", .arr [.str "line_item", .str "line_item"])])]),
        ("aliases", .arr [.str "line_items", .str "line_items"])]]),
    ("aliases", .arr [.str "order", .str "order"])]

/-- A record whose single field lacks its required `type` key. -/
def fieldMissingType : Json :=
  .obj [("type", .str "record"), ("name", .str "Order"),
    ("fields", .arr [.obj [("name", .str "orderId")]])]

/-! ### The claims -/

/-- C1: for every schema tree, the traversal changes nothing except
`aliases`: erasing every `aliases` entry from the result gives back the input
with its `aliases` entries erased, so no key is removed or renamed, every
record `name` and field `name` keeps its value, and the order of every
`fields` list is preserved exactly; the only modification is to `aliases`
lists (whose growth is the subject of the C2 theorem). -/
theorem traversal_changes_only_aliases (s : Json) (p : String) (s' : Json)
    (h : traverse_schema s p = .ok s') : stripAliases s' = stripAliases s :=
  (strip_frame (sizeOf s)).1 s p s' (le_refl _) h

theorem traversal_changes_only_aliases_witness :
    stripAliases exampleResult = stripAliases exampleSchema :=
  traversal_changes_only_aliases exampleSchema "User" exampleResult rfl

/-- C2: one traversal run appends exactly one new entry to the `aliases`
list of every visited record with a `name` and of every visited field
(`visitCount` counts those nodes), preserving existing entries — the
record/field aliasing steps rewrite an `aliases` list to itself plus one
appended derived entry, never deduplicating — so a second run grows the
total alias count by the same amount again and the result of the second run
differs from the first whenever anything was visited at all: aliasing is not
idempotent. -/
theorem aliasing_not_idempotent (s : Json) (p : String) (s₁ s₂ : Json)
    (h₁ : traverse_schema s p = .ok s₁) (h₂ : traverse_schema s₁ p = .ok s₂) :
    countAliases s₁ = countAliases s + visitCount s ∧
    countAliases s₂ = countAliases s + 2 * visitCount s ∧
    (∀ kvs q n, getKey? kvs "name" = some (.str n) → aliasesOk kvs = true →
      ∃ kvs', add_alias_to_record kvs q = .ok kvs' ∧
        aliasList kvs' = aliasList kvs ++ [.str (to_snake_case (removePre n q))]) ∧
    (∀ kvs n, getKey? kvs "name" = some (.str n) → aliasesOk kvs = true →
      ∃ kvs', add_alias_to_field kvs = .ok kvs' ∧
        aliasList kvs' = aliasList kvs ++ [.str (to_snake_case n)]) ∧
    (0 < visitCount s → s₂ ≠ s₁) := by
  obtain ⟨hc1, hv1⟩ := (count_run (sizeOf s)).1 s p s₁ (le_refl _) h₁
  obtain ⟨hc2, hv2⟩ := (count_run (sizeOf s₁)).1 s₁ p s₂ (le_refl _) h₂
  refine ⟨hc1, by omega, ?_, ?_, ?_⟩
  · intro kvs q n hn ha
    exact ⟨_, add_alias_to_record_eq hn ha, aliasList_setKey kvs _⟩
  · intro kvs n hn ha
    exact ⟨_, add_alias_to_field_eq hn ha, aliasList_setKey kvs _⟩
  · intro hv heq
    rw [heq] at hc2
    omega

theorem aliasing_not_idempotent_witness :
    countAliases exampleResult = countAliases exampleSchema + visitCount exampleSchema ∧
    countAliases exampleTwice = countAliases exampleSchema + 2 * visitCount exampleSchema ∧
    (∀ kvs q n, getKey? kvs "name" = some (.str n) → aliasesOk kvs = true →
      ∃ kvs', add_alias_to_record kvs q = .ok kvs' ∧
        aliasList kvs' = aliasList kvs ++ [.str (to_snake_case (removePre n q))]) ∧
    (∀ kvs n, getKey? kvs "name" = some (.str n) → aliasesOk kvs = true →
      ∃ kvs', add_alias_to_field kvs = .ok kvs' ∧
        aliasList kvs' = aliasList kvs ++ [.str (to_snake_case n)]) ∧
    (0 < visitCount exampleSchema → exampleTwice ≠ exampleResult) :=
  aliasing_not_idempotent exampleSchema "User" exampleResult exampleTwice rfl rfl

/-- C3: applying `add_aliases_to_avro_schema` with the subject name `"User"`
to the spec's example schema yields exactly the expected tree: the top record
gains `"aliases": ["order"]`, field `orderId` gains `["order_id"]`, field
`lineItems` gains `["line_items"]`, the nested record `LineItem` gains
`["line_item"]`, the nested field `skuCode` gains `["sku_code"]`, and
everything else is unchanged. -/
theorem end_to_end_example :
    add_aliases_to_avro_schema exampleSchema "User" = .ok exampleResult := rfl

/-- C4: the subject-name removal applies only to record names — the
record step appends `to_snake_case(name.removeprefix(p))` while the field
step appends `to_snake_case(name)` with no use of any subject name — and
removal is an exact, case-sensitive match at the start of the name:
a non-prefix leaves the name unchanged, an exact prefix removes exactly
itself, `"userOrder"` is not touched by the prefix `"User"`, and record name
`"UserOrderCreatedEvent"` with prefix `"User"` yields the alias
`"order_created_event"`. -/
theorem prefix_stripping_records_only :
    (∀ kvs p n, getKey? kvs "name" = some (.str n) → aliasesOk kvs = true →
      add_alias_to_record kvs p =
        .ok (setKey kvs "aliases"
          (.arr (aliasList kvs ++ [.str (to_snake_case (removePre n p))])))) ∧
    (∀ kvs n, getKey? kvs "name" = some (.str n) → aliasesOk kvs = true →
      add_alias_to_field kvs =
        .ok (setKey kvs "aliases"
          (.arr (aliasList kvs ++ [.str (to_snake_case n)])))) ∧
    (∀ n p : String, p.toList.isPrefixOf n.toList = false → removePre n p = n) ∧
    (∀ p r : String, removePre (p ++ r) p = r) ∧
    to_snake_case (removePre "UserOrderCreatedEvent" "User") = "order_created_event" ∧
    removePre "userOrder" "User" = "userOrder" := by
  refine ⟨?_, ?_, ?_, ?_, by decide, by decide⟩
  · intro kvs p n hn ha
    exact add_alias_to_record_eq hn ha
  · intro kvs n hn ha
    exact add_alias_to_field_eq hn ha
  · intro n p h
    exact removePre_of_not_prefix h
  · intro p r
    exact removePre_append p r

theorem prefix_stripping_records_only_witness :
    add_alias_to_record [("name", Json.str "UserOrderCreatedEvent")] "User" =
      .ok [("name", Json.str "UserOrderCreatedEvent"),
        ("aliases", Json.arr [Json.str "order_created_event"])] :=
  prefix_stripping_records_only.1 [("name", Json.str "UserOrderCreatedEvent")]
    "User" "UserOrderCreatedEvent" rfl rfl

/-- C5: on an identifier made of ASCII letters and digits, the Name Caser
emits exactly one `'_'` separator per uppercase letter at a position other
than the first, and its output contains no uppercase letter; in particular an
all-uppercase token of length n yields n-1 separators. -/
theorem name_caser_separator_count (s : String) :
    ((∀ c ∈ s.toList, c.isAlphanum = true) →
      (to_snake_case s).toList.count '_'
          = (s.toList.drop 1).countP (fun c => c.isUpper) ∧
      (∀ c ∈ (to_snake_case s).toList, c.isUpper = false)) ∧
    ((∀ c ∈ s.toList, c.isUpper = true) →
      (to_snake_case s).toList.count '_' = s.length - 1) := by
  have hmain : (∀ c ∈ s.toList, c.isAlphanum = true) →
      (to_snake_case s).toList.count '_'
        = (s.toList.drop 1).countP (fun c => c.isUpper) := by
    intro h
    obtain ⟨cs⟩ := s
    cases cs with
    | nil => rfl
    | cons c rest =>
      have hc := h c (List.mem_cons_self c rest)
      have hrest : ∀ x ∈ rest, x.isAlphanum = true :=
        fun x hx => h x (List.mem_cons_of_mem c hx)
      have hne : (c.toLower == '_') = false := by
        simp only [beq_eq_false_iff_ne, ne_eq]
        exact toLower_ne_underscore hc
      show (c.toLower :: snakeTail rest).count '_' = rest.countP (fun c => c.isUpper)
      rw [List.count_cons]
      rw [snakeTail_count hrest]
      simp [hne]
  constructor
  · intro h
    exact ⟨hmain h, to_snake_case_not_upper s⟩
  · intro h
    have halnum : ∀ c ∈ s.toList, c.isAlphanum = true := by
      intro c hc
      have hu := h c hc
      simp [Char.isAlphanum, Char.isAlpha, hu]
    rw [hmain halnum]
    obtain ⟨cs⟩ := s
    cases cs with
    | nil => rfl
    | cons c rest =>
      have hall : ∀ x ∈ rest, (fun c : Char => c.isUpper) x = true :=
        fun x hx => h x (List.mem_cons_of_mem c hx)
      show ((c :: rest).drop 1).countP (fun c => c.isUpper) = (c :: rest).length - 1
      rw [List.drop_one, List.tail_cons, List.countP_eq_length.mpr hall]
      simp

theorem name_caser_separator_count_witness :
    (∀ c ∈ "HTTPServer".toList, c.isAlphanum = true) ∧
    (to_snake_case "HTTPServer").toList.count '_'
      = ("HTTPServer".toList.drop 1).countP (fun c => c.isUpper) ∧
    (∀ c ∈ "ABCD".toList, c.isUpper = true) ∧
    (to_snake_case "ABCD").toList.count '_' = "ABCD".length - 1 :=
  ⟨by decide, ((name_caser_separator_count "HTTPServer").1 (by decide)).1,
    by decide, (name_caser_separator_count "ABCD").2 (by decide)⟩

/-- C6: on a union (a field `type` that is a list), the dispatch recurses
into exactly the members that are objects and leaves every primitive string
(indeed every non-object) member unchanged at its position; consequently a
field with type `["null", "string"]` only gains its field-level alias, with
its union — and hence the rest of the tree — untouched. -/
theorem union_dispatch_skips_primitives (ts : List Json) (p : String) (ts' : List Json)
    (h : traverseUnion ts p = .ok ts') :
    (ts'.length = ts.length ∧
      ∀ i (hi : i < ts.length) (hi' : i < ts'.length),
        ((∀ kvs, ts[i] ≠ .obj kvs) → ts'[i] = ts[i]) ∧
        (∀ kvs, ts[i] = .obj kvs → traverse_schema ts[i] p = .ok ts'[i])) ∧
    (∀ q : String, ∀ nm : String,
      processField (.obj [("name", .str nm), ("type", .arr [.str "null", .str "string"])]) q
        = .ok (.obj [("name", .str nm), ("type", .arr [.str "null", .str "string"]),
            ("aliases", .arr [.str (to_snake_case nm)])])) := by
  constructor
  · induction ts generalizing ts' with
    | nil =>
      obtain rfl := Except.ok.inj h
      exact ⟨rfl, fun i hi => absurd hi (by simp)⟩
    | cons t rest ih =>
      unfold traverseUnion at h
      cases t with
      | obj kvs =>
        cases hts : traverse_schema (.obj kvs) p with
        | error e => simp [hts] at h
        | ok t' =>
          simp only [hts] at h
          cases hrest : traverseUnion rest p with
          | error e => simp [hrest] at h
          | ok rest' =>
            simp [hrest] at h
            subst h
            obtain ⟨hlen, hidx⟩ := ih rest' hrest
            refine ⟨by simp [hlen], ?_⟩
            intro i hi hi'
            cases i with
            | zero =>
              constructor
              · intro hno
                exact absurd rfl (hno kvs)
              · intro kvs2 _
                simpa using hts
            | succ j =>
              simp only [List.getElem_cons_succ]
              exact hidx j (by simpa using hi) (by simpa using hi')
      | null =>
        cases hrest : traverseUnion rest p with
        | error e => simp [hrest] at h
        | ok rest' =>
          simp [hrest] at h
          subst h
          obtain ⟨hlen, hidx⟩ := ih rest' hrest
          refine ⟨by simp [hlen], ?_⟩
          intro i hi hi'
          cases i with
          | zero => exact ⟨fun _ => by simp, fun kvs2 hk => Json.noConfusion hk⟩
          | succ j =>
            simp only [List.getElem_cons_succ]
            exact hidx j (by simpa using hi) (by simpa using hi')
      | bool b =>
        cases hrest : traverseUnion rest p with
        | error e => simp [hrest] at h
        | ok rest' =>
          simp [hrest] at h
          subst h
          obtain ⟨hlen, hidx⟩ := ih rest' hrest
          refine ⟨by simp [hlen], ?_⟩
          intro i hi hi'
          cases i with
          | zero => exact ⟨fun _ => by simp, fun kvs2 hk => Json.noConfusion hk⟩
          | succ j =>
            simp only [List.getElem_cons_succ]
            exact hidx j (by simpa using hi) (by simpa using hi')
      | num m =>
        cases hrest : traverseUnion rest p with
        | error e => simp [hrest] at h
        | ok rest' =>
          simp [hrest] at h
          subst h
          obtain ⟨hlen, hidx⟩ := ih rest' hrest
          refine ⟨by simp [hlen], ?_⟩
          intro i hi hi'
          cases i with
          | zero => exact ⟨fun _ => by simp, fun kvs2 hk => Json.noConfusion hk⟩
          | succ j =>
            simp only [List.getElem_cons_succ]
            exact hidx j (by simpa using hi) (by simpa using hi')
      | str st =>
        cases hrest : traverseUnion rest p with
        | error e => simp [hrest] at h
        | ok rest' =>
          simp [hrest] at h
          subst h
          obtain ⟨hlen, hidx⟩ := ih rest' hrest
          refine ⟨by simp [hlen], ?_⟩
          intro i hi hi'
          cases i with
          | zero => exact ⟨fun _ => by simp, fun kvs2 hk => Json.noConfusion hk⟩
          | succ j =>
            simp only [List.getElem_cons_succ]
            exact hidx j (by simpa using hi) (by simpa using hi')
      | arr xs =>
        cases hrest : traverseUnion rest p with
        | error e => simp [hrest] at h
        | ok rest' =>
          simp [hrest] at h
          subst h
          obtain ⟨hlen, hidx⟩ := ih rest' hrest
          refine ⟨by simp [hlen], ?_⟩
          intro i hi hi'
          cases i with
          | zero => exact ⟨fun _ => by simp, fun kvs2 hk => Json.noConfusion hk⟩
          | succ j =>
            simp only [List.getElem_cons_succ]
            exact hidx j (by simpa using hi) (by simpa using hi')
  · intro q nm
    rfl

theorem union_dispatch_skips_primitives_witness :
    traverseUnion [Json.str "null", Json.str "string"] "User"
        = .ok [Json.str "null", Json.str "string"] ∧
    ([Json.str "null", Json.str "string"] : List Json).length = 2 :=
  ⟨rfl,
    (union_dispatch_skips_primitives [Json.str "null", Json.str "string"]
      "User" [Json.str "null", Json.str "string"] rfl).1.1⟩

/-- C7: under the spec's data model (visited `name`s are strings, `aliases`
are lists, `fields` are lists of objects — `shapeOk`), traversing a schema
raises an error, propagated uncaught to the caller, exactly when a visited
field lacks a required key: `hasRequiredKeys` demands precisely `name`
(needed by the Alias-to-Field Adder) and `type` (read by the traverser) on
every reachable field; and the Alias-to-Field Adder itself succeeds exactly
when the field has a `name`. -/
theorem traversal_error_iff_missing_required_key :
    (∀ kvs, nameOk kvs = true → aliasesOk kvs = true →
      exceptOk (add_alias_to_field kvs) = hasKey kvs "name") ∧
    (∀ s p, shapeOk s = true →
      ((∃ e, traverse_schema s p = .error e) ↔ hasRequiredKeys s = false)) := by
  constructor
  · intro kvs hnm hal
    exact add_alias_to_field_isOk kvs hnm hal
  · intro s p hs
    rw [← exceptOk_false_iff]
    rw [(ok_iff_required (sizeOf s)).1 s p (le_refl _) hs]

theorem traversal_error_iff_missing_required_key_witness :
    shapeOk fieldMissingType = true ∧
    hasRequiredKeys fieldMissingType = false ∧
    (∃ e, traverse_schema fieldMissingType "" = .error e) :=
  ⟨rfl, rfl,
    (traversal_error_iff_missing_required_key.2 fieldMissingType "" rfl).mpr rfl⟩

/-- C8: a node with `type == "record"` but no `fields` key is traversed as if
it had zero fields: no error is raised, no field processing or descent
happens, and the result is exactly the record-level alias addition and
nothing else. -/
theorem record_missing_fields_treated_empty (kvs : List (String × Json)) (p : String)
    (h1 : getKey? kvs "type" = some (.str "record"))
    (h2 : getKey? kvs "fields" = none)
    (h3 : nameOk kvs = true) (h4 : aliasesOk kvs = true) :
    ∃ kvs', add_alias_to_record kvs p = .ok kvs' ∧
      traverse_schema (.obj kvs) p = .ok (.obj kvs') := by
  obtain ⟨kvs', hadd⟩ := add_alias_to_record_ok kvs p h3 h4
  refine ⟨kvs', hadd, ?_⟩
  rw [traverse_schema_record p h1, traverseFields_of_none p h2]
  simp [Except.bind, Except.map, hadd]

theorem record_missing_fields_treated_empty_witness :
    ∃ kvs', add_alias_to_record [("type", Json.str "record"),
        ("name", Json.str "Order")] "" = .ok kvs' ∧
      traverse_schema (.obj [("type", Json.str "record"),
        ("name", Json.str "Order")]) "" = .ok (.obj kvs') :=
  record_missing_fields_treated_empty [("type", Json.str "record"),
    ("name", Json.str "Order")] "" rfl rfl rfl rfl

/-- C9: when a record's `name` equals the subject-name string exactly, the
Alias-to-Record Adder appends the empty string as the alias (prefix removal
leaves the empty remainder, which the Name Caser maps to the empty string);
no error is raised and no non-empty alias is produced. -/
theorem record_name_equals_subject_gives_empty_alias
    (kvs : List (String × Json)) (p : String)
    (hn : getKey? kvs "name" = some (.str p)) (ha : aliasesOk kvs = true) :
    ∃ kvs', add_alias_to_record kvs p = .ok kvs' ∧
      aliasList kvs' = aliasList kvs ++ [.str ""] := by
  refine ⟨_, add_alias_to_record_eq hn ha, ?_⟩
  rw [aliasList_setKey]
  rw [removePre_self]
  rfl

theorem record_name_equals_subject_gives_empty_alias_witness :
    ∃ kvs', add_alias_to_record [("name", Json.str "User")] "User" = .ok kvs' ∧
      aliasList kvs' = aliasList [("name", Json.str "User")] ++ [.str ""] :=
  record_name_equals_subject_gives_empty_alias [("name", Json.str "User")]
    "User" rfl rfl

/-- C10: the Name Caser is idempotent on every string: its output contains
no `[A-Z]` character, and a string without such characters passes through
unchanged. -/
theorem to_snake_case_idempotent (s : String) :
    to_snake_case (to_snake_case s) = to_snake_case s :=
  to_snake_case_of_not_upper (to_snake_case_not_upper s)

end AvroAlias
